import Mathlib

/-!
Verification of the order-book market simulator (src/main.c).

Shallow embedding conventions:
* Machine integers are modelled as `Nat` with explicit reductions `w32` / `w64`
  at the points where the C code performs `u32` / `u64` arithmetic (unsigned
  overflow is defined behaviour in C and is modelled faithfully).  The signed
  `int` ledger fields (`balance`, `sharesOpen`) are modelled as `Int`; signed
  overflow is undefined behaviour in C and is not modelled.
* The intrusive singly-linked order lists (`limitOrderHead[p]` chains) are
  modelled as `List Nat` of pool slot handles, head first, exactly the order
  the pointers induce.  The pool slot contents live in `slots : Nat → Order`,
  the free-list stack `freeLimitOrders` (top of stack first) in
  `freeList : List Nat`.
* Fallible operations (`exit(1)` paths: pool exhaustion, book collapse) return
  `Option`; `none` is the aborted execution.
-/

namespace OBMS

/-- `% 2^32`: the reduction applied wherever the C code computes in `u32`. -/
def w32 (n : Nat) : Nat := n % 4294967296

/-- `% 2^64`: the reduction applied wherever the C code computes in `u64`. -/
def w64 (n : Nat) : Nat := n % 18446744073709551616

/-- `ULLONG_MAX`, the "never expires" sentinel used for user limit orders. -/
def UMAX64 : Nat := 18446744073709551615

/-- `#define NUM_PRICES 100000` from the source. -/
def NUM_PRICES : Nat := 100000

/-- `#define MAX_NUM_USER_LIMIT_ORDERS 100` from the source. -/
def MAX_NUM_USER_LIMIT_ORDERS : Nat := 100

/-- `u64 frameLengthNS = 100000000` from the source. -/
def frameLengthNS : Nat := 100000000

/-- Pointwise function update on `Nat`-indexed stores (array writes). -/
def upd {α : Type} (f : Nat → α) (k : Nat) (v : α) : Nat → α :=
  fun x => if x = k then v else f x

/-- One pool slot: the `limitOrder` struct from the source (the intrusive
`next` pointer is represented by the position of the handle in a level list). -/
structure Order where
  size : Nat
  p : Nat
  expirationTime : Nat
  user : Bool
deriving Repr, DecidableEq

/-- The zero-initialised slot produced by `calloc` in `setup()`. -/
def Order.zero : Order := { size := 0, p := 0, expirationTime := 0, user := false }

/-- Construction-time configuration: `poolSize`, the tie-break flag
`fillTiesInStackOrder` and `realisticUserMarketOrders` are the mutable
configuration globals of the source that the embedded operations read. -/
structure Config where
  poolSize : Nat
  fillTiesInStackOrder : Bool
  realisticUserMarketOrders : Bool
deriving Repr, DecidableEq

/-- The global mutable state of the engine (order pool, order book, user
order tracking, ledger, user size settings, and the simulation clocks of
`mainCycle`). -/
structure EngineState where
  slots : Nat → Order
  freeList : List Nat
  levels : Nat → List Nat
  bid : Nat
  ask : Nat
  userOrders : List Nat
  balance : Int
  sharesOpen : Int
  userMarketBuySize : Nat
  userMarketSellSize : Nat
  userLimitBuySize : Nat
  userLimitSellSize : Nat
  nextOrderCreation : Nat
  targetTime : Nat

/-- The head-removal loop of `updateLimitOrders`: frees every expired order
at the front of the level list (`limitOrderHead[p]` is advanced each time),
stopping at the first unexpired order.  Returns (remaining list, freed
handles in the order they were pushed onto the free stack). -/
def removeExpiredHead (slots : Nat → Order) (t : Nat) : List Nat → List Nat × List Nat
  | [] => ([], [])
  | curr :: rest =>
    if (slots curr).expirationTime ≤ t then
      let r := removeExpiredHead slots t rest
      (r.1, curr :: r.2)
    else (curr :: rest, [])

/-- The interior-removal loop of `updateLimitOrders`: `curr` walks the list
and each expired `curr->next` is unlinked (`curr->next = next->next`) and
freed.  Operates on the tail after the retained head. -/
def removeExpiredTail (slots : Nat → Order) (t : Nat) : List Nat → List Nat × List Nat
  | [] => ([], [])
  | next :: rest =>
    if (slots next).expirationTime ≤ t then
      let r := removeExpiredTail slots t rest
      (r.1, next :: r.2)
    else
      let r := removeExpiredTail slots t rest
      (next :: r.1, r.2)

/-- `updateLimitOrders(p, t)` on one level list: the head loop followed by the
interior loop.  Returns (survivors, freed handles in push order). -/
def updateLimitOrdersList (slots : Nat → Order) (t : Nat) (lvl : List Nat) :
    List Nat × List Nat :=
  match removeExpiredHead slots t lvl with
  | ([], f) => ([], f)
  | (curr :: rest, f) =>
    let r := removeExpiredTail slots t rest
    (curr :: r.1, f ++ r.2)

/-- Sequential pushes `freeLimitOrders[numFreeLimitOrders++] = h` of the freed
handles onto the free stack (stack top = list head). -/
def pushAll (freed : List Nat) (free : List Nat) : List Nat :=
  freed.foldl (fun acc h => h :: acc) free

/-- `updateLimitOrders(p, t)`: sweep the level at price `p`, returning the
expired orders to the pool. -/
def updateLimitOrders (p t : Nat) (st : EngineState) : EngineState :=
  let r := updateLimitOrdersList st.slots t (st.levels p)
  { st with levels := upd st.levels p r.1, freeList := pushAll r.2 st.freeList }

/-- `addLimitOrder(p, size, expirationTime, user)`: pop a slot from the free
stack (`none` = "Ran out of free limit orders", `exit(1)`), fill it in, track
it when user-owned, and link it into the price level: head-insert when
`fillTiesInStackOrder`, else append at the tail.  The `u32 p` / `u32 size`
parameters truncate the caller's values. -/
def addLimitOrder (cfg : Config) (p size expirationTime : Nat) (user : Bool)
    (st : EngineState) : Option EngineState :=
  match st.freeList with
  | [] => none
  | lo :: freeRest =>
    let pp := w32 p
    let ord : Order :=
      { size := w32 size, p := pp, expirationTime := w64 expirationTime, user := user }
    some { st with
      freeList := freeRest
      slots := upd st.slots lo ord
      userOrders := if user then st.userOrders ++ [lo] else st.userOrders
      levels :=
        if st.levels pp = [] then upd st.levels pp [lo]
        else if cfg.fillTiesInStackOrder then upd st.levels pp (lo :: st.levels pp)
        else upd st.levels pp (st.levels pp ++ [lo]) }

/-- The complete-fill block of `fillOrders`: `*o += s*p; *size -= s` happen
in the caller; here the order is freed, the ledger and the user tracking
list are updated when it is user-owned, and the level head is advanced
(`limitOrderHead[p] = curr->next`). -/
def fillFullStep (p : Nat) (isSell : Bool) (curr : Nat) (rest : List Nat)
    (st : EngineState) : EngineState :=
  { st with
    freeList := curr :: st.freeList
    balance :=
      if (st.slots curr).user then
        if isSell then st.balance - (w32 ((st.slots curr).size * p) : Nat)
        else st.balance + (w32 ((st.slots curr).size * p) : Nat)
      else st.balance
    sharesOpen :=
      if (st.slots curr).user then
        if isSell then st.sharesOpen + ((st.slots curr).size : Int)
        else st.sharesOpen - ((st.slots curr).size : Int)
      else st.sharesOpen
    userOrders := if (st.slots curr).user then st.userOrders.erase curr else st.userOrders
    levels := upd st.levels p rest }

/-- The partial-fill block of `fillOrders`: `curr->size -= *size`, ledger
updated when user-owned; the order stays resting. -/
def fillPartStep (p : Nat) (isSell : Bool) (curr size : Nat)
    (st : EngineState) : EngineState :=
  { st with
    slots := upd st.slots curr { st.slots curr with size := (st.slots curr).size - size }
    balance :=
      if (st.slots curr).user then
        if isSell then st.balance - (w32 (size * p) : Nat)
        else st.balance + (w32 (size * p) : Nat)
      else st.balance
    sharesOpen :=
      if (st.slots curr).user then
        if isSell then st.sharesOpen + (size : Int) else st.sharesOpen - (size : Int)
      else st.sharesOpen }

/-- `fillOrders(p, &size, &o, isSell)`: walk the level list head to tail;
an order of size `s ≤ size` is fully consumed (freed, ledger and tracking
updated when user-owned, head advanced), otherwise it is reduced in place by
the remaining `size` (ledger updated when user-owned) and the scan stops.
Returns (state, remaining size, accumulated `u32` total `o`).
The list argument is the current `limitOrderHead[p]` chain. -/
def fillOrders (p : Nat) (isSell : Bool) :
    List Nat → Nat → Nat → EngineState → EngineState × Nat × Nat
  | [], size, o, st => (st, size, o)
  | curr :: rest, size, o, st =>
    if (st.slots curr).size ≤ size then
      fillOrders p isSell rest (size - (st.slots curr).size)
        (w32 (o + (st.slots curr).size * p)) (fillFullStep p isSell curr rest st)
    else (fillPartStep p isSell curr size st, 0, w32 (o + size * p))

/-- Ghost observation (not present in the C code): the list of
(handle, consumed quantity) pairs that `fillOrders` consumes from a level
list for a given remaining size, in consumption order. -/
def levelFills (slots : Nat → Order) : List Nat → Nat → List (Nat × Nat)
  | [], _ => []
  | curr :: rest, size =>
    let s := (slots curr).size
    if s ≤ size then (curr, s) :: levelFills slots rest (size - s)
    else [(curr, size)]

/-- Result of processing one non-empty price level inside a market-order
scan: the mutated state, the remaining requested size, the accumulated `u32`
total, and the ghost fill list of the level. -/
structure LevelStepResult where
  st : EngineState
  size : Nat
  o : Nat
  fills : List (Nat × Nat)

/-- One non-empty level visited by `marketSell` at price `p`: `bid = p`,
`updateLimitOrders(p, t)`, `fillOrders(p, &size, &o, 1)`.  `fills` is the
ghost observation of the consumed portions. -/
def sellLevelStep (t p size o : Nat) (st : EngineState) : LevelStepResult :=
  let st2 := updateLimitOrders p t { st with bid := p }
  let r := fillOrders p true (st2.levels p) size o st2
  { st := r.1, size := r.2.1, o := r.2.2
    fills := levelFills st2.slots (st2.levels p) size }

/-- One non-empty level visited by `marketBuy` at price `p`: `ask = p`,
`updateLimitOrders(p, t)`, `fillOrders(p, &size, &o, 0)`. -/
def buyLevelStep (t p size o : Nat) (st : EngineState) : LevelStepResult :=
  let st2 := updateLimitOrders p t { st with ask := p }
  let r := fillOrders p false (st2.levels p) size o st2
  { st := r.1, size := r.2.1, o := r.2.2
    fills := levelFills st2.slots (st2.levels p) size }

/-- The `marketSell` scan: `for (p = bid; size > 0; p--)`.  At each price:
skip empty levels, otherwise set `bid = p`, sweep expired orders, then fill.
Decrementing `p` past 0 wraps to `UINT_MAX` and aborts ("Filled all buy limit
orders"), modelled by `none` at `p = 0`.  The third result component is a
ghost trace of (price, level fills) in visit order; state and the returned
total `o` follow the source. -/
def marketSellGo (t : Nat) :
    Nat → Nat → Nat → Nat → EngineState →
      Option (EngineState × Nat × List (Nat × List (Nat × Nat)))
  | 0, _, size, o, st => if size = 0 then some (st, o, []) else none
  | fuel + 1, p, size, o, st =>
    if size = 0 then some (st, o, [])
    else
      if st.levels p = [] then
        if p = 0 then none else marketSellGo t fuel (p - 1) size o st
      else
        let r := sellLevelStep t p size o st
        if r.size = 0 then some (r.st, r.o, [(p, r.fills)])
        else if p = 0 then none
        else (marketSellGo t fuel (p - 1) r.size r.o r.st).map
          (fun q => (q.1, q.2.1, (p, r.fills) :: q.2.2))

/-- `marketSell(size, t)`: scan down from the bid.  Returns the final state,
the amount earned in cents (`u32`), and the ghost fill trace. -/
def marketSell (size t : Nat) (st : EngineState) :
    Option (EngineState × Nat × List (Nat × List (Nat × Nat))) :=
  marketSellGo t (st.bid + 1) st.bid size 0 st

/-- The `marketBuy` scan: `for (p = ask; size > 0; p++)`; reaching
`NUM_PRICES` aborts ("Filled all sell limit orders"), modelled by `none`.
At each price: skip empty levels, otherwise set `ask = p`, sweep, fill. -/
def marketBuyGo (t : Nat) :
    Nat → Nat → Nat → Nat → EngineState →
      Option (EngineState × Nat × List (Nat × List (Nat × Nat)))
  | 0, _, size, o, st =>
    if size = 0 then some (st, o, []) else none
  | fuel + 1, p, size, o, st =>
    if size = 0 then some (st, o, [])
    else if NUM_PRICES ≤ p then none
    else
      if st.levels p = [] then marketBuyGo t fuel (p + 1) size o st
      else
        let r := buyLevelStep t p size o st
        (marketBuyGo t fuel (p + 1) r.size r.o r.st).map
          (fun q => (q.1, q.2.1, (p, r.fills) :: q.2.2))

/-- `marketBuy(size, t)`: scan up from the ask.  Returns the final state, the
amount spent in cents (`u32`), and the ghost fill trace. -/
def marketBuy (size t : Nat) (st : EngineState) :
    Option (EngineState × Nat × List (Nat × List (Nat × Nat))) :=
  marketBuyGo t NUM_PRICES st.ask size 0 st

/-- The bid loop of `updateBidAndAsk`: walk `bid` downward while its level is
empty; decrementing past 0 wraps to `UINT_MAX` and aborts ("Deleted all limit
buy orders"), modelled by `none`. -/
def walkBidDown (levels : Nat → List Nat) : Nat → Nat → Option Nat
  | 0, b => if levels b ≠ [] then some b else none
  | fuel + 1, b =>
    if levels b ≠ [] then some b
    else if b = 0 then none else walkBidDown levels fuel (b - 1)

/-- The ask loop of `updateBidAndAsk`: walk `ask` upward while its level is
empty; reaching `NUM_PRICES` aborts ("Deleted all limit sell orders"). -/
def walkAskUp (levels : Nat → List Nat) : Nat → Nat → Option Nat
  | 0, a => if levels a ≠ [] then some a else none
  | fuel + 1, a =>
    if levels a ≠ [] then some a
    else if NUM_PRICES ≤ a + 1 then none else walkAskUp levels fuel (a + 1)

/-- `updateBidAndAsk()`: restore `bid` to the highest non-empty level at or
below it and `ask` to the lowest non-empty level at or above it. -/
def updateBidAndAsk (st : EngineState) : Option EngineState :=
  match walkBidDown st.levels (st.bid + 1) st.bid with
  | none => none
  | some b =>
    match walkAskUp st.levels NUM_PRICES st.ask with
    | none => none
    | some a => some { st with bid := b, ask := a }

/-- The free stack after the frame sweep
`for (p = 0; p < NUM_PRICES; p++) updateLimitOrders(p, targetTime)`: each
level's freed handles are pushed in ascending price order. -/
def sweepAllFree (slots : Nat → Order) (t : Nat) (levels : Nat → List Nat)
    (free : List Nat) : List Nat :=
  (List.range NUM_PRICES).foldl
    (fun acc p => pushAll (updateLimitOrdersList slots t (levels p)).2 acc) free

/-- The frame sweep over every price level at time `t`. -/
def sweepAllLevels (t : Nat) (st : EngineState) : EngineState :=
  { st with
    levels := fun p =>
      if p < NUM_PRICES then (updateLimitOrdersList st.slots t (st.levels p)).1
      else st.levels p
    freeList := sweepAllFree st.slots t st.levels st.freeList }

/-- The user's market buy command: with `realisticUserMarketOrders`, execute
`marketBuy(userMarketBuySize, targetTime)` and subtract the returned amount
from the balance; otherwise charge `userMarketBuySize * ask` (`u32` product)
without touching the book.  Either way `sharesOpen += userMarketBuySize`. -/
def userMarketBuyCmd (cfg : Config) (st : EngineState) : Option EngineState :=
  if cfg.realisticUserMarketOrders then
    (marketBuy st.userMarketBuySize st.targetTime st).map fun r =>
      { r.1 with
        balance := r.1.balance - (r.2.1 : Nat)
        sharesOpen := r.1.sharesOpen + (st.userMarketBuySize : Int) }
  else
    some { st with
      balance := st.balance - (w32 (st.userMarketBuySize * st.ask) : Nat)
      sharesOpen := st.sharesOpen + (st.userMarketBuySize : Int) }

/-- The user's market sell command, symmetric to `userMarketBuyCmd`. -/
def userMarketSellCmd (cfg : Config) (st : EngineState) : Option EngineState :=
  if cfg.realisticUserMarketOrders then
    (marketSell st.userMarketSellSize st.targetTime st).map fun r =>
      { r.1 with
        balance := r.1.balance + (r.2.1 : Nat)
        sharesOpen := r.1.sharesOpen - (st.userMarketSellSize : Int) }
  else
    some { st with
      balance := st.balance + (w32 (st.userMarketSellSize * st.bid) : Nat)
      sharesOpen := st.sharesOpen - (st.userMarketSellSize : Int) }

/-- The user limit-order block of `mainCycle`: only when
`numUserLimitOrders < MAX_NUM_USER_LIMIT_ORDERS`, a limit buy is placed at
the bid (taking precedence over a limit sell at the ask), with the
never-expires sentinel.  When the tracking list is full the request is
skipped with no report — exactly as in the source. -/
def userLimitCmd (cfg : Config) (buyLimit sellLimit : Bool) (st : EngineState) :
    Option EngineState :=
  if st.userOrders.length < MAX_NUM_USER_LIMIT_ORDERS then
    if buyLimit then addLimitOrder cfg st.bid st.userLimitBuySize UMAX64 true st
    else if sellLimit then addLimitOrder cfg st.ask st.userLimitSellSize UMAX64 true st
    else some st
  else some st

/-- The committed result of the size-editing keyboard mode (keyboard polling
itself is outside the core): `sel` is `userSelected`, `v` the committed
`userEditingNumber` (the digit loop keeps it below 10^9).  `sel = 0` sets all
four sizes, `1`–`4` one each, as in the `switch` of `mainCycle`. -/
def applyEdit : Option (Nat × Nat) → EngineState → EngineState
  | none, st => st
  | some (sel, v), st =>
    match sel with
    | 0 => { st with userMarketBuySize := v, userMarketSellSize := v,
                     userLimitBuySize := v, userLimitSellSize := v }
    | 1 => { st with userMarketBuySize := v }
    | 2 => { st with userMarketSellSize := v }
    | 3 => { st with userLimitBuySize := v }
    | 4 => { st with userLimitSellSize := v }
    | _ => st

/-- The backspace command: set every tracked user order's expiration to 0
(lazy deletion — removal happens at the next sweep of its level) and reset
the tracking count to 0. -/
def withdrawAllUserOrders (st : EngineState) : EngineState :=
  { st.userOrders.foldl
      (fun s lo =>
        { s with slots := upd s.slots lo { s.slots lo with expirationTime := 0 } })
      st
    with userOrders := [] }

/-- One frame iteration of `mainCycle` (taken when no synthetic order is
due): sweep every level at `targetTime`, refresh bid/ask, execute the user's
collected commands in source order (market buy, market sell, limit order,
size-edit commit, withdrawal), then advance `targetTime` by `frameLengthNS`.
Rendering and input polling are outside the core. -/
def frameStep (cfg : Config) (buyMarket sellMarket buyLimit sellLimit backspace : Bool)
    (edit : Option (Nat × Nat)) (st : EngineState) : Option EngineState :=
  let st1 := sweepAllLevels st.targetTime st
  (updateBidAndAsk st1).bind fun st2 =>
  (if buyMarket then userMarketBuyCmd cfg st2 else some st2).bind fun st3 =>
  (if sellMarket then userMarketSellCmd cfg st3 else some st3).bind fun st4 =>
  (userLimitCmd cfg buyLimit sellLimit st4).bind fun st5 =>
  let st6 := applyEdit edit st5
  let st7 := if backspace then withdrawAllUserOrders st6 else st6
  some { st7 with targetTime := w64 (st7.targetTime + frameLengthNS) }

/-- One synthetic market-order event of `mainCycle`: a market sell when the
50/50 coin `flip` is set, else a market buy, of `u32`-truncated size, at time
`nextOrderCreation`; the returned amount is discarded and the next creation
time advances by `delta`. -/
def synMarketStep (flip : Bool) (sizeDraw delta : Nat) (st : EngineState) :
    Option EngineState :=
  let t := st.nextOrderCreation
  (if flip then marketSell (w32 sizeDraw) t st else marketBuy (w32 sizeDraw) t st).map
    fun r => { r.1 with nextOrderCreation := w64 (t + delta) }

/-- One synthetic limit-sell event: price `bid + rl(averageLimitOrderDistance)`
(`u64` sum truncated to `u32`), expiring `life` after creation; afterwards
`if (p < ask) ask = p`. -/
def synLimitSellStep (cfg : Config) (dist sizeDraw life delta : Nat)
    (st : EngineState) : Option EngineState :=
  let t := st.nextOrderCreation
  let p := w32 (w64 (st.bid + dist))
  (addLimitOrder cfg p sizeDraw (w64 (t + life)) false st).map fun st1 =>
    let st2 := if p < st1.ask then { st1 with ask := p } else st1
    { st2 with nextOrderCreation := w64 (t + delta) }

/-- One synthetic limit-buy event: price `ask - rl(averageLimitOrderDistance)`
(`u64` wrapping subtraction truncated to `u32`); afterwards
`if (p > bid) bid = p`. -/
def synLimitBuyStep (cfg : Config) (dist sizeDraw life delta : Nat)
    (st : EngineState) : Option EngineState :=
  let t := st.nextOrderCreation
  let p := w32 ((st.ask + (UMAX64 + 1) - w64 dist) % (UMAX64 + 1))
  (addLimitOrder cfg p sizeDraw (w64 (t + life)) false st).map fun st1 =>
    let st2 := if st1.bid < p then { st1 with bid := p } else st1
    { st2 with nextOrderCreation := w64 (t + delta) }

/-- The state after `setup()` and before `setupMarket`: zeroed pool slots,
all `poolSize` slots free (slot `poolSize - 1` on top of the stack), empty
levels, ledger zero, the default user order sizes. -/
def initState (cfg : Config) : EngineState :=
  { slots := fun _ => Order.zero
    freeList := (List.range cfg.poolSize).reverse
    levels := fun _ => []
    bid := 0
    ask := 4294967295
    userOrders := []
    balance := 0
    sharesOpen := 0
    userMarketBuySize := 100
    userMarketSellSize := 100
    userLimitBuySize := 100
    userLimitSellSize := 100
    nextOrderCreation := 0
    targetTime := 0 }

/-- The insertion order of `setupMarket`: ten orders at each price from the
bid down through `bid - 10`, then ten at each price from the ask up through
`ask + 10`. -/
def setupOrders (bid ask : Nat) : List Nat :=
  ((List.range 11).flatMap (fun i => List.replicate 10 (bid - i))) ++
  ((List.range 11).flatMap (fun i => List.replicate 10 (ask + i)))

/-- The insertion loop of `setupMarket`: each order has size
`(u32)averageMarketOrderSize = 8` and expiration `startingTime` plus its own
lifespan draw `life idx`. -/
def setupInserts (cfg : Config) (startTime : Nat) (life : Nat → Nat) :
    List Nat → Nat → EngineState → Option EngineState
  | [], _, st => some st
  | p :: rest, idx, st =>
    (addLimitOrder cfg p 8 (w64 (startTime + life idx)) false st).bind
      (setupInserts cfg startTime life rest (idx + 1))

/-- `setupMarket(startingTime)` followed by the initialisation of
`mainCycle`: the bid and spread are the truncated uniform draws
(`bid ∈ {500, 501}`, `spread ∈ {1, 2}` with the source's settings), eleven
levels of ten resting orders are created on each side, and both clocks start
at `startingTime`. -/
def setupMarket (cfg : Config) (bidDraw spreadDraw startTime : Nat)
    (life : Nat → Nat) : Option EngineState :=
  let b := bidDraw
  let a := b + spreadDraw
  setupInserts cfg startTime life (setupOrders b a) 0
    { initState cfg with
      bid := b, ask := a, nextOrderCreation := startTime, targetTime := startTime }

/-- The committed edit value: the digit loop of `mainCycle` keeps
`userEditingNumber` below 10^9. -/
def EditOK : Option (Nat × Nat) → Prop
  | none => True
  | some (_, v) => v ≤ 999999999

/-- The states of the engine reachable by `mainCycle` from `setupMarket`,
one constructor per kind of loop iteration.  Random draws appear as
universally quantified parameters constrained to the ranges the PRNG can
produce: `rl(avg)` always returns at least 1, and its value stays far below
2^32 for the configured averages (the uniform draw granularity is 2^-64; a
draw of exactly 0 makes `log(x)` and the float-to-integer cast undefined, and
such executions — together with the out-of-bounds array writes a wrapped
price would cause — are outside the model). -/
inductive Reach (cfg : Config) : EngineState → Prop where
  | setup : ∀ bidDraw spreadDraw startTime life st,
      500 ≤ bidDraw → bidDraw ≤ 501 → 1 ≤ spreadDraw → spreadDraw ≤ 2 →
      (∀ i, 1 ≤ life i) →
      setupMarket cfg bidDraw spreadDraw startTime life = some st →
      Reach cfg st
  | synMarket : ∀ st flip sizeDraw delta st',
      Reach cfg st → st.nextOrderCreation < st.targetTime →
      1 ≤ sizeDraw → sizeDraw < 4294967296 → 1 ≤ delta →
      synMarketStep flip sizeDraw delta st = some st' →
      Reach cfg st'
  | synLimitSell : ∀ st dist sizeDraw life delta st',
      Reach cfg st → st.nextOrderCreation < st.targetTime →
      1 ≤ dist → st.bid + dist < NUM_PRICES →
      1 ≤ sizeDraw → sizeDraw < 4294967296 → 1 ≤ life → 1 ≤ delta →
      synLimitSellStep cfg dist sizeDraw life delta st = some st' →
      Reach cfg st'
  | synLimitBuy : ∀ st dist sizeDraw life delta st',
      Reach cfg st → st.nextOrderCreation < st.targetTime →
      1 ≤ dist → dist ≤ st.ask → st.ask < 4294967296 →
      1 ≤ sizeDraw → sizeDraw < 4294967296 → 1 ≤ life → 1 ≤ delta →
      synLimitBuyStep cfg dist sizeDraw life delta st = some st' →
      Reach cfg st'
  | frame : ∀ st buyMarket sellMarket buyLimit sellLimit backspace edit st',
      Reach cfg st → st.targetTime ≤ st.nextOrderCreation →
      EditOK edit →
      frameStep cfg buyMarket sellMarket buyLimit sellLimit backspace edit st = some st' →
      Reach cfg st'

set_option maxRecDepth 100000

/-! ### Ghost observation functions and invariant definitions -/

/-- The expiration test `expirationTime <= t` of the sweep loops. -/
def isExpired (slots : Nat → Order) (t h : Nat) : Bool :=
  (slots h).expirationTime ≤ t

/-- Ghost: the level list left behind by `fillOrders` (fully consumed head
orders removed; a partially consumed order stays in place). -/
def levelAfterFill (slots : Nat → Order) : List Nat → Nat → List Nat
  | [], _ => []
  | curr :: rest, size =>
    if (slots curr).size ≤ size then levelAfterFill slots rest (size - (slots curr).size)
    else curr :: rest

/-- Ghost: the handles fully consumed (and hence freed) by `fillOrders`, in
consumption order. -/
def fullHandles (slots : Nat → Order) : List Nat → Nat → List Nat
  | [], _ => []
  | curr :: rest, size =>
    if (slots curr).size ≤ size then curr :: fullHandles slots rest (size - (slots curr).size)
    else []

/-- Ghost: the final partial fill of `fillOrders`, if any: the handle at
which the scan stops and the quantity consumed from it (strictly less than
its resting size). -/
def partFillAt (slots : Nat → Order) : List Nat → Nat → Option (Nat × Nat)
  | [], _ => none
  | curr :: rest, size =>
    if (slots curr).size ≤ size then partFillAt slots rest (size - (slots curr).size)
    else some (curr, size)

/-- Total quantity of a list of (handle, quantity) fills. -/
def fillsQty (fills : List (Nat × Nat)) : Nat := (fills.map Prod.snd).sum

/-- Notional (quantity * price) of a list of fills at one price. -/
def fillsNotional (p : Nat) (fills : List (Nat × Nat)) : Nat :=
  (fills.map fun f => f.2 * p).sum

/-- The fills of a list that touch user-owned orders. -/
def userFills (slots : Nat → Order) (fills : List (Nat × Nat)) : List (Nat × Nat) :=
  fills.filter fun f => (slots f.1).user

/-- The `u32`-wrapped user notional of a fill list at one price, as the
ledger accumulates it (each fill's `u32` product added separately). -/
def userNotionalW (slots : Nat → Order) (p : Nat) (fills : List (Nat × Nat)) : Int :=
  ((userFills slots fills).map fun f => (w32 (f.2 * p) : Int)).sum

/-- Total quantity of the user fills of a fill list. -/
def userQty (slots : Nat → Order) (fills : List (Nat × Nat)) : Int :=
  ((userFills slots fills).map fun f => (f.2 : Int)).sum

/-- Total quantity consumed by a ghost market-order trace. -/
def traceQty (tr : List (Nat × List (Nat × Nat))) : Nat :=
  (tr.map fun lv => fillsQty lv.2).sum

/-- The pool partition invariant: every handle below the pool capacity is on
the free list exclusive-or reachable from exactly one price level, each level
list and the free list being duplicate-free. -/
structure PoolInv (cfg : Config) (st : EngineState) : Prop where
  freeBound : ∀ h ∈ st.freeList, h < cfg.poolSize
  freeNodup : st.freeList.Nodup
  lvlNodup : ∀ p, (st.levels p).Nodup
  lvlBound : ∀ p h, h ∈ st.levels p → h < cfg.poolSize
  disj : ∀ p h, h ∈ st.levels p → h ∉ st.freeList
  cross : ∀ p q h, h ∈ st.levels p → h ∈ st.levels q → p = q
  cover : ∀ h, h < cfg.poolSize → h ∈ st.freeList ∨ ∃ p, h ∈ st.levels p

/-! ### Helper lemmas -/

lemma optEqSomeGetD {α : Type} (o : Option α) (d : α) (h : o.isSome = true) :
    o = some (o.getD d) := by
  cases o with
  | none => cases h
  | some a => rfl

lemma pushAll_eq (freed free : List Nat) : pushAll freed free = freed.reverse ++ free := by
  induction freed generalizing free with
  | nil => rfl
  | cons h rest ih =>
    show pushAll rest (h :: free) = (h :: rest).reverse ++ free
    rw [ih, List.reverse_cons, List.append_assoc]
    rfl

lemma removeExpiredTail_eq (slots : Nat → Order) (t : Nat) (l : List Nat) :
    removeExpiredTail slots t l =
      (l.filter (fun h => ! isExpired slots t h), l.filter (isExpired slots t)) := by
  induction l with
  | nil => rfl
  | cons h rest ih =>
    by_cases he : (slots h).expirationTime ≤ t
    · simp [removeExpiredTail, he, ih, List.filter, isExpired]
    · simp [removeExpiredTail, he, ih, List.filter, isExpired]

lemma updateLimitOrdersList_cons_expired (slots : Nat → Order) (t h : Nat)
    (rest : List Nat) (he : (slots h).expirationTime ≤ t) :
    updateLimitOrdersList slots t (h :: rest) =
      ((updateLimitOrdersList slots t rest).1,
        h :: (updateLimitOrdersList slots t rest).2) := by
  show (match removeExpiredHead slots t (h :: rest) with
        | ([], f) => ([], f)
        | (curr :: r, f) =>
          (curr :: (removeExpiredTail slots t r).1, f ++ (removeExpiredTail slots t r).2))
      = _
  rw [show removeExpiredHead slots t (h :: rest) =
        ((removeExpiredHead slots t rest).1, h :: (removeExpiredHead slots t rest).2) by
      simp [removeExpiredHead, he]]
  unfold updateLimitOrdersList
  rcases hr : removeExpiredHead slots t rest with ⟨a, b⟩
  cases a <;> simp

lemma updateLimitOrdersList_eq (slots : Nat → Order) (t : Nat) (l : List Nat) :
    updateLimitOrdersList slots t l =
      (l.filter (fun h => ! isExpired slots t h), l.filter (isExpired slots t)) := by
  induction l with
  | nil => rfl
  | cons h rest ih =>
    by_cases he : (slots h).expirationTime ≤ t
    · rw [updateLimitOrdersList_cons_expired slots t h rest he, ih]
      simp [List.filter, isExpired, he]
    · have hh : removeExpiredHead slots t (h :: rest) = (h :: rest, []) := by
        simp [removeExpiredHead, he]
      unfold updateLimitOrdersList
      rw [hh]
      simp [removeExpiredTail_eq, List.filter, isExpired, he]

/-- Default-flag configuration with a small pool (`poolSize` is the
`poolCapacity` construction option of the spec). -/
def cfgTail (n : Nat) : Config :=
  { poolSize := n, fillTiesInStackOrder := false, realisticUserMarketOrders := true }

/-- Head-insert (`fillTiesInStackOrder = 1`) configuration. -/
def cfgHead (n : Nat) : Config :=
  { poolSize := n, fillTiesInStackOrder := true, realisticUserMarketOrders := true }

/-- A small book: one resting sell of size 5 at 105, bid at 100, three free
slots.  Base state for the C5 scenario. -/
def c5Base : EngineState :=
  { slots := fun h =>
      if h = 3 then { size := 5, p := 105, expirationTime := UMAX64, user := false }
      else Order.zero
    freeList := [0, 1, 2]
    levels := fun p => if p = 105 then [3] else []
    bid := 100, ask := 105
    userOrders := [], balance := 0, sharesOpen := 0
    userMarketBuySize := 100, userMarketSellSize := 100
    userLimitBuySize := 100, userLimitSellSize := 100
    nextOrderCreation := 0, targetTime := 0 }

/-- The C5 scenario: insert the user limit buy (price 100, size 10, never
expiring), then the later synthetic buy (price 100, size 5), then execute a
market sell of size 12 at time 5. -/
def c5Run (cfg : Config) :
    Option (EngineState × Nat × List (Nat × List (Nat × Nat))) :=
  (addLimitOrder cfg 100 10 UMAX64 true c5Base).bind fun st1 =>
  (addLimitOrder cfg 100 5 1000 false st1).bind fun st2 =>
  marketSell 12 5 st2

/-- Book with a lone fresh sell of size 5 at the ask 105, the next sell level
at 107, and a bid level at 100.  Base state for the C7 scenario. -/
def c7Base : EngineState :=
  { slots := fun h =>
      if h = 0 then { size := 5, p := 100, expirationTime := UMAX64, user := false }
      else if h = 1 then { size := 5, p := 105, expirationTime := 1000, user := false }
      else if h = 2 then { size := 4, p := 107, expirationTime := 1000, user := false }
      else Order.zero
    freeList := [3, 4]
    levels := fun p =>
      if p = 100 then [0] else if p = 105 then [1] else if p = 107 then [2] else []
    bid := 100, ask := 105
    userOrders := [], balance := 0, sharesOpen := 0
    userMarketBuySize := 100, userMarketSellSize := 100
    userLimitBuySize := 100, userLimitSellSize := 100
    nextOrderCreation := 0, targetTime := 0 }

/-- Book whose ask level 64 holds a resting sell of size 2^26, so that the
notional 2^26 * 64 = 2^32 overflows the `u32` accumulator.  Base state for
the C3 counterexample. -/
def c3Base : EngineState :=
  { slots := fun h =>
      if h = 0 then { size := 1, p := 1, expirationTime := UMAX64, user := false }
      else if h = 1 then { size := 67108864, p := 64, expirationTime := UMAX64, user := false }
      else Order.zero
    freeList := [2]
    levels := fun p => if p = 1 then [0] else if p = 64 then [1] else []
    bid := 1, ask := 64
    userOrders := [], balance := 0, sharesOpen := 0
    userMarketBuySize := 100, userMarketSellSize := 100
    userLimitBuySize := 100, userLimitSellSize := 100
    nextOrderCreation := 0, targetTime := 0 }

/-- Book whose bid level 64 holds a user-owned resting buy of size 2^26
(notional 2^32).  Base state for the C4 counterexample. -/
def c4Base : EngineState :=
  { slots := fun h =>
      if h = 0 then { size := 67108864, p := 64, expirationTime := UMAX64, user := true }
      else if h = 1 then { size := 5, p := 70, expirationTime := UMAX64, user := false }
      else Order.zero
    freeList := [2]
    levels := fun p => if p = 64 then [0] else if p = 70 then [1] else []
    bid := 64, ask := 70
    userOrders := [0], balance := 0, sharesOpen := 0
    userMarketBuySize := 100, userMarketSellSize := 100
    userLimitBuySize := 100, userLimitSellSize := 100
    nextOrderCreation := 0, targetTime := 0 }

/-- Book after `withdrawAllUserOrders()`: the user's buy at the bid level 100
carries the elapsed sentinel expiration 0 and the tracking list is empty; a
synthetic buy rests at 99.  Base state for the C10 counterexample. -/
def c10Base : EngineState :=
  { slots := fun h =>
      if h = 0 then { size := 10, p := 100, expirationTime := 0, user := true }
      else if h = 1 then { size := 5, p := 99, expirationTime := UMAX64, user := false }
      else if h = 2 then { size := 5, p := 105, expirationTime := UMAX64, user := false }
      else Order.zero
    freeList := [3]
    levels := fun p =>
      if p = 100 then [0] else if p = 99 then [1] else if p = 105 then [2] else []
    bid := 100, ask := 105
    userOrders := [], balance := 7, sharesOpen := 3
    userMarketBuySize := 100, userMarketSellSize := 100
    userLimitBuySize := 100, userLimitSellSize := 100
    nextOrderCreation := 0, targetTime := 0 }

/-- Book with bid 500 and ask 510.  Base state for the C6 counterexample. -/
def c6Base : EngineState :=
  { slots := fun h =>
      if h = 0 then { size := 5, p := 500, expirationTime := UMAX64, user := false }
      else if h = 1 then { size := 5, p := 510, expirationTime := UMAX64, user := false }
      else Order.zero
    freeList := [2, 3]
    levels := fun p => if p = 500 then [0] else if p = 510 then [1] else []
    bid := 500, ask := 510
    userOrders := [], balance := 0, sharesOpen := 0
    userMarketBuySize := 100, userMarketSellSize := 100
    userLimitBuySize := 100, userLimitSellSize := 100
    nextOrderCreation := 0, targetTime := 1 }

/-- State whose user-order tracking list is full (100 resting user buys at
the bid level 500).  Failing input for C9. -/
def c9Base : EngineState :=
  { slots := fun h =>
      if h < 100 then { size := 10, p := 500, expirationTime := UMAX64, user := true }
      else if h = 100 then { size := 5, p := 600, expirationTime := UMAX64, user := false }
      else Order.zero
    freeList := [101, 102]
    levels := fun p =>
      if p = 500 then List.range 100 else if p = 600 then [100] else []
    bid := 500, ask := 600
    userOrders := List.range 100, balance := 0, sharesOpen := 0
    userMarketBuySize := 100, userMarketSellSize := 100
    userLimitBuySize := 100, userLimitSellSize := 100
    nextOrderCreation := 5, targetTime := 3 }

/-- The market right after `setupMarket` with pool capacity 230, bid draw
500, spread draw 1, starting time 0, every lifespan draw 10. -/
def c1St0 : EngineState :=
  (setupMarket (cfgTail 230) 500 1 0 (fun _ => 10)).getD (initState (cfgTail 230))

/-- `c1St0` after the first frame iteration of `mainCycle` (no user input). -/
def c1St1 : EngineState :=
  (frameStep (cfgTail 230) false false false false false none c1St0).getD c1St0

/-- `c1St1` after a synthetic market buy of size 80 — exactly the ten
size-8 resting sells of the ask level 501. -/
def c1St2 : EngineState :=
  (synMarketStep false 80 1 c1St1).getD c1St1

/-- Total notional of a ghost market-order fill trace:
sum of price * quantity over every consumed portion. -/
def traceNotional (tr : List (Nat × List (Nat × Nat))) : Nat :=
  (tr.map fun lv => ((lv.2.map fun f => f.2 * lv.1).sum)).sum

/-- The concrete result of the C3 counterexample run, used by witnesses. -/
def c3R : EngineState × Nat × List (Nat × List (Nat × Nat)) :=
  (marketBuy 67108864 5 c3Base).getD (c3Base, 0, [])

/-- The concrete result of the C10 counterexample run, used by witnesses. -/
def c10R : EngineState × Nat × List (Nat × List (Nat × Nat)) :=
  (marketSell 1 50 c10Base).getD (c10Base, 0, [])

/-- The concrete result of the C7 scenario run, used by witnesses. -/
def c7R : EngineState × Nat × List (Nat × List (Nat × Nat)) :=
  (marketBuy 5 10 c7Base).getD (c7Base, 0, [])

/-- The C7 scenario state after the market buy and the subsequent bid/ask
refresh. -/
def c7R2 : EngineState :=
  (updateBidAndAsk c7R.1).getD c7R.1

/-! ### Counterexamples and concrete scenario theorems -/

/-- Claim C1, counterexample: the state reached by `setupMarket`, one frame
iteration, and one synthetic market buy of size 80 (which consumes the ask
level 501 — ten resting sells of size 8 — exactly) is reachable, yet its ask
level holds no resting order: the scan leaves `ask` on the emptied level. -/
theorem c1_counterexample :
    Reach (cfgTail 230) c1St2 ∧ c1St2.levels c1St2.ask = [] := by
  constructor
  · apply Reach.synMarket c1St1 false 80 1
    · apply Reach.frame c1St0 false false false false false none
      · exact Reach.setup 500 1 0 (fun _ => 10) c1St0 (by decide) (by decide)
          (by decide) (by decide) (fun _ => (by decide : (1:Nat) ≤ 10))
          (optEqSomeGetD _ _ (by decide))
      · decide
      · trivial
      · exact optEqSomeGetD _ _ (by decide)
    · decide
    · decide
    · decide
    · decide
    · exact optEqSomeGetD _ _ (by decide)
  · decide

/-- Claim C5, counterexample: under the head-insert fill-first tie-break the
claim names (`fillTiesInStackOrder = 1`), the later synthetic buy at 100 is
at the head, so the market sell of 12 fills the synthetic order fully (5) and
the user order only partially (7 of 10): the user order stays resting with
size 3 and tracked, the balance moves by -700 (not +1000) and the position by
+7 (not -10). -/
theorem c5_counterexample :
    ((c5Run (cfgHead 4)).map fun r =>
        (r.1.balance, r.1.sharesOpen, r.1.levels 100, (r.1.slots 0).size,
         r.1.userOrders))
      = some (-700, 7, [0], 3, [0])
    ∧ ((c5Run (cfgHead 4)).map fun r => r.2.2) = some [(100, [(1, 5), (0, 7)])]
    ∧ ((c5Run (cfgHead 4)).map fun r => r.1.balance) ≠ some 1000
    ∧ ((c5Run (cfgHead 4)).map fun r => r.1.sharesOpen) ≠ some (-10) :=
  ⟨by decide, by decide, by decide, by decide⟩

/-- Claim C5 (amended): with the default tail-insert FIFO tie-break the user
limit buy at 100 size 10 rests ahead of the later synthetic buy at 100 size
5; a market sell of size 12 fully fills the user order (10 shares, which is
freed and removed from tracking) and partially fills the synthetic order (2
shares, 3 remain resting), and — this being a fill of the user's resting
buy — the ledger balance decreases by exactly 1000 while the position
increases by exactly 10. -/
theorem c5_amended :
    ((c5Run (cfgTail 4)).map fun r =>
        (r.1.balance, r.1.sharesOpen, r.1.levels 100, (r.1.slots 1).size,
         r.1.userOrders))
      = some (-1000, 10, [1], 3, [])
    ∧ ((c5Run (cfgTail 4)).map fun r => (r.1.freeList, r.2.1)) = some ([0, 2], 1200)
    ∧ ((c5Run (cfgTail 4)).map fun r => r.2.2) = some [(100, [(0, 10), (1, 2)])] :=
  ⟨by decide, by decide, by decide⟩

/-- Claim C7, counterexample: with the ask level 105 holding a single fresh
sell of size 5 and the next non-empty sell level at 107, `marketBuy(5)`
consumes the level fully but leaves `ask = 105`, the now-empty level — the
scan itself does not advance the ask to the next non-empty level. -/
theorem c7_counterexample :
    ((marketBuy 5 10 c7Base).map fun r => (r.1.ask, r.1.levels 105, r.2.1))
      = some (105, [], 525)
    ∧ ((marketBuy 5 10 c7Base).map fun r => r.1.ask) ≠ some 107 :=
  ⟨by decide, by decide⟩

/-- Claim C3, counterexample: a market buy consuming one resting sell of
size 2^26 at price 64 (notional 2^26 * 64 = 2^32) returns 0, because the
running total is accumulated in a `u32`; the exact sum of price * quantity
over the consumed portions is 2^32, not 0. -/
theorem c3_counterexample :
    ((marketBuy 67108864 5 c3Base).map fun r => (r.2.1, traceNotional r.2.2))
      = some (0, 4294967296)
    ∧ ((marketBuy 67108864 5 c3Base).map fun r => r.2.1)
        ≠ ((marketBuy 67108864 5 c3Base).map fun r => traceNotional r.2.2) :=
  ⟨by decide, by decide⟩

/-- Claim C4, counterexample: a market sell fully filling a user-owned
resting buy of size 2^26 at price 64 (notional 2^26 * 64 = 2^32) leaves the
balance unchanged — the ledger moves by the notional reduced mod 2^32, which
is 0 here, not by the full notional.  (Tracking removal and the position
update by the consumed quantity do happen.) -/
theorem c4_counterexample :
    ((marketSell 67108864 5 c4Base).map fun r =>
        (r.1.balance, r.1.sharesOpen, r.1.userOrders, r.1.freeList))
      = some (0, 67108864, [], [0, 2])
    ∧ (c4Base.slots 0).size * (c4Base.slots 0).p = 4294967296
    ∧ ((marketSell 67108864 5 c4Base).map fun r => r.1.balance)
        ≠ some (c4Base.balance - 4294967296) :=
  ⟨by decide, by decide, by decide⟩

/-- Claim C10, counterexample: a market sell of size 1 against a book whose
bid level 100 holds a withdrawn user buy (sentinel expiration 0, tracking
already reset) never fills that order: the per-level sweep inside the scan
frees it before matching (the trace shows no fill at 100), the fill happens
at 99 against the synthetic order, and the ledger is completely untouched —
not updated by any notional. -/
theorem c10_counterexample :
    ((marketSell 1 50 c10Base).map fun r =>
        (r.1.balance, r.1.sharesOpen, r.1.freeList, r.1.levels 100, r.2.1))
      = some (7, 3, [0, 3], [], 99)
    ∧ ((marketSell 1 50 c10Base).map fun r => r.2.2) = some [(100, []), (99, [(1, 1)])]
    ∧ ((marketSell 1 50 c10Base).map fun r => r.1.balance) ≠ some (7 - 100)
    ∧ ((marketSell 1 50 c10Base).map fun r => r.1.sharesOpen) ≠ some (3 + 1) :=
  ⟨by decide, by decide, by decide, by decide⟩

/-- Claim C6, counterexample: from a state with bid 500 and ask 510, the
synthetic limit-sell event with price-offset draw 3 places the sell at
`bid + 3 = 503` — strictly below the current ask 510, refuting "a limit sell
is placed above the ask" — and then lowers the sell-side best pointer itself
(`ask` becomes 503). -/
theorem c6_counterexample :
    ((synLimitSellStep (cfgTail 4) 3 7 100 1 c6Base).map fun st =>
        (st.levels 503, (st.slots 2).p, st.ask, st.bid))
      = some ([2], 503, 503, 500)
    ∧ 503 < c6Base.ask :=
  ⟨by decide, by decide⟩

/-- Claim C9: when the outstanding-order tracking list is full, the user
limit-order block of `mainCycle` skips the insertion entirely and reports
nothing — the command is silently dropped (the frame succeeds, the book,
the tracking list and the bid are unchanged), contradicting the requirement
that `UserOrderCapacityExceeded` be reported and never silently dropped. -/
theorem c9_silent_drop :
    (∀ (cfg : Config) (bl sl : Bool) (st : EngineState),
        MAX_NUM_USER_LIMIT_ORDERS ≤ st.userOrders.length →
        userLimitCmd cfg bl sl st = some st)
    ∧ ((frameStep (cfgTail 200) false false true false false none c9Base).map fun st =>
          (st.userOrders, st.levels 500, st.bid))
        = some (List.range 100, List.range 100, 500) := by
  constructor
  · intro cfg bl sl st h
    have hn : ¬ st.userOrders.length < MAX_NUM_USER_LIMIT_ORDERS := not_lt.mpr h
    simp [userLimitCmd, hn]
  · decide

/-- Witness for `c9_silent_drop`: the full tracking list of `c9Base`
discharges the hypothesis of its first component. -/
theorem c9_silent_drop_witness :
    MAX_NUM_USER_LIMIT_ORDERS ≤ c9Base.userOrders.length ∧
    userLimitCmd (cfgTail 200) true false c9Base = some c9Base :=
  ⟨by decide, c9_silent_drop.1 (cfgTail 200) true false c9Base (by decide)⟩

/-! ### The expiration sweep is an order-preserving filter (C8) -/

/-- Claim C8: the expiration sweep at a level removes, and pushes onto the
free stack, exactly the orders with `expirationTime ≤ now`; the survivors are
the remaining orders in their original relative order (the two pointer loops
— expired head run, interior unlinking — implement an order-preserving
filter); other levels and the slot contents are untouched. -/
theorem c8_sweep_exact :
    ∀ (st : EngineState) (p t : Nat),
      (updateLimitOrders p t st).levels p
          = (st.levels p).filter (fun h => ! isExpired st.slots t h)
      ∧ (updateLimitOrders p t st).freeList
          = ((st.levels p).filter (isExpired st.slots t)).reverse ++ st.freeList
      ∧ (∀ q, q ≠ p → (updateLimitOrders p t st).levels q = st.levels q)
      ∧ (updateLimitOrders p t st).slots = st.slots := by
  intro st p t
  unfold updateLimitOrders
  rw [updateLimitOrdersList_eq]
  refine ⟨by simp [upd], by simp [pushAll_eq], ?_, rfl⟩
  intro q hq
  simp [upd, hq]

/-! ### Small facts about the fill ghosts -/

lemma fillsQty_levelFills_le (slots : Nat → Order) :
    ∀ (lvl : List Nat) (size : Nat), fillsQty (levelFills slots lvl size) ≤ size := by
  intro lvl
  induction lvl with
  | nil => intro size; simp [levelFills, fillsQty]
  | cons curr rest ih =>
    intro size
    by_cases hs : (slots curr).size ≤ size
    · have h2 := ih (size - (slots curr).size)
      simp only [fillsQty] at h2
      simp only [levelFills, hs, if_true, fillsQty, List.map_cons, List.sum_cons]
      omega
    · simp [levelFills, hs, fillsQty]

lemma mem_levelFills (slots : Nat → Order) :
    ∀ (lvl : List Nat) (size : Nat) (f : Nat × Nat),
      f ∈ levelFills slots lvl size → f.1 ∈ lvl := by
  intro lvl
  induction lvl with
  | nil => intro size f hf; simp [levelFills] at hf
  | cons curr rest ih =>
    intro size f hf
    by_cases hs : (slots curr).size ≤ size
    · simp only [levelFills, hs, if_pos, List.mem_cons] at hf
      rcases hf with hf | hf
      · subst hf; exact List.mem_cons_self _ _
      · exact List.mem_cons_of_mem _ (ih _ f hf)
    · simp only [levelFills, hs, if_neg, not_false_iff, List.mem_singleton] at hf
      subst hf
      exact List.mem_cons_self _ _

lemma levelFills_handles_take (slots : Nat → Order) :
    ∀ (lvl : List Nat) (size : Nat),
      ∃ k, (levelFills slots lvl size).map Prod.fst = lvl.take k := by
  intro lvl
  induction lvl with
  | nil => intro size; exact ⟨0, rfl⟩
  | cons curr rest ih =>
    intro size
    by_cases hs : (slots curr).size ≤ size
    · obtain ⟨k, hk⟩ := ih (size - (slots curr).size)
      exact ⟨k + 1, by simp [levelFills, hs, hk]⟩
    · exact ⟨1, by simp [levelFills, hs]⟩

/-! ### `fillOrders` characterised by the ghost functions -/

lemma w32_lt (n : Nat) : w32 n < 4294967296 := Nat.mod_lt _ (by decide)

lemma w32_add_left (a b : Nat) : w32 (w32 a + b) = w32 (a + b) :=
  Nat.mod_add_mod a 4294967296 b

lemma fillOrders_o (p : Nat) (isSell : Bool) :
    ∀ (lvl : List Nat) (size o : Nat) (st : EngineState), o < 4294967296 →
      (fillOrders p isSell lvl size o st).2.2
        = w32 (o + fillsNotional p (levelFills st.slots lvl size)) := by
  intro lvl
  induction lvl with
  | nil =>
    intro size o st ho
    simp [fillOrders, levelFills, fillsNotional, w32, Nat.mod_eq_of_lt ho]
  | cons curr rest ih =>
    intro size o st ho
    by_cases hs : (st.slots curr).size ≤ size
    · rw [show fillOrders p isSell (curr :: rest) size o st
            = fillOrders p isSell rest (size - (st.slots curr).size)
                (w32 (o + (st.slots curr).size * p)) (fillFullStep p isSell curr rest st)
          from by simp [fillOrders, hs]]
      rw [ih _ _ _ (w32_lt _)]
      rw [show (fillFullStep p isSell curr rest st).slots = st.slots from rfl]
      simp only [levelFills, hs, if_true, fillsNotional, List.map_cons, List.sum_cons]
      rw [w32_add_left]
      congr 1
      omega
    · rw [show fillOrders p isSell (curr :: rest) size o st
            = (fillPartStep p isSell curr size st, 0, w32 (o + size * p))
          from by simp [fillOrders, hs]]
      simp [levelFills, hs, fillsNotional]

lemma fillOrders_size (p : Nat) (isSell : Bool) :
    ∀ (lvl : List Nat) (size o : Nat) (st : EngineState),
      (fillOrders p isSell lvl size o st).2.1
        = size - fillsQty (levelFills st.slots lvl size) := by
  intro lvl
  induction lvl with
  | nil => intro size o st; simp [fillOrders, levelFills, fillsQty]
  | cons curr rest ih =>
    intro size o st
    by_cases hs : (st.slots curr).size ≤ size
    · rw [show fillOrders p isSell (curr :: rest) size o st
            = fillOrders p isSell rest (size - (st.slots curr).size)
                (w32 (o + (st.slots curr).size * p)) (fillFullStep p isSell curr rest st)
          from by simp [fillOrders, hs]]
      rw [ih]
      rw [show (fillFullStep p isSell curr rest st).slots = st.slots from rfl]
      simp only [levelFills, hs, if_true, fillsQty, List.map_cons, List.sum_cons]
      omega
    · rw [show fillOrders p isSell (curr :: rest) size o st
            = (fillPartStep p isSell curr size st, 0, w32 (o + size * p))
          from by simp [fillOrders, hs]]
      simp [levelFills, hs, fillsQty]

lemma fillOrders_state (p : Nat) (isSell : Bool) :
    ∀ (lvl : List Nat) (size o : Nat) (st : EngineState), st.levels p = lvl →
      (fillOrders p isSell lvl size o st).1.levels p = levelAfterFill st.slots lvl size
      ∧ (∀ q, q ≠ p → (fillOrders p isSell lvl size o st).1.levels q = st.levels q)
      ∧ (fillOrders p isSell lvl size o st).1.freeList
          = (fullHandles st.slots lvl size).reverse ++ st.freeList
      ∧ (fillOrders p isSell lvl size o st).1.balance
          = st.balance + (if isSell then -1 else 1)
              * userNotionalW st.slots p (levelFills st.slots lvl size)
      ∧ (fillOrders p isSell lvl size o st).1.sharesOpen
          = st.sharesOpen + (if isSell then 1 else -1)
              * userQty st.slots (levelFills st.slots lvl size)
      ∧ (fillOrders p isSell lvl size o st).1.userOrders
          = ((fullHandles st.slots lvl size).filter fun h => (st.slots h).user).foldl
              List.erase st.userOrders
      ∧ (fillOrders p isSell lvl size o st).1.slots
          = (match partFillAt st.slots lvl size with
             | none => st.slots
             | some f => upd st.slots f.1 { st.slots f.1 with size := (st.slots f.1).size - f.2 })
      ∧ (fillOrders p isSell lvl size o st).1.bid = st.bid
      ∧ (fillOrders p isSell lvl size o st).1.ask = st.ask
      ∧ (fillOrders p isSell lvl size o st).1.nextOrderCreation = st.nextOrderCreation
      ∧ (fillOrders p isSell lvl size o st).1.targetTime = st.targetTime
      ∧ (fillOrders p isSell lvl size o st).1.userMarketBuySize = st.userMarketBuySize
      ∧ (fillOrders p isSell lvl size o st).1.userMarketSellSize = st.userMarketSellSize
      ∧ (fillOrders p isSell lvl size o st).1.userLimitBuySize = st.userLimitBuySize
      ∧ (fillOrders p isSell lvl size o st).1.userLimitSellSize = st.userLimitSellSize := by
  intro lvl
  induction lvl with
  | nil =>
    intro size o st hsync
    refine ⟨?_, ?_, ?_, ?_, ?_, ?_, ?_, rfl, rfl, rfl, rfl, rfl, rfl, rfl, rfl⟩
    · simpa [fillOrders, levelAfterFill] using hsync
    · intro q _; rfl
    · simp [fillOrders, fullHandles]
    · simp [fillOrders, levelFills, userNotionalW, userFills]
    · simp [fillOrders, levelFills, userQty, userFills]
    · simp [fillOrders, fullHandles]
    · simp [fillOrders, partFillAt]
  | cons curr rest ih =>
    intro size o st hsync
    by_cases hs : (st.slots curr).size ≤ size
    · rw [show fillOrders p isSell (curr :: rest) size o st
            = fillOrders p isSell rest (size - (st.slots curr).size)
                (w32 (o + (st.slots curr).size * p)) (fillFullStep p isSell curr rest st)
          from by simp [fillOrders, hs]]
      have hsync1 : (fillFullStep p isSell curr rest st).levels p = rest := by
        simp [fillFullStep, upd]
      obtain ⟨ih1, ih2, ih3, ih4, ih5, ih6, ih7, ih8, ih9, ih10, ih11, ih12, ih13,
        ih14, ih15⟩ := ih (size - (st.slots curr).size) (w32 (o + (st.slots curr).size * p))
          (fillFullStep p isSell curr rest st) hsync1
      have hslots : (fillFullStep p isSell curr rest st).slots = st.slots := rfl
      rw [hslots] at ih1 ih3 ih4 ih5 ih6 ih7
      refine ⟨?_, ?_, ?_, ?_, ?_, ?_, ?_, ih8, ih9, ih10, ih11, ih12, ih13, ih14, ih15⟩
      · rw [ih1]; simp [levelAfterFill, hs]
      · intro q hq
        rw [ih2 q hq]
        simp [fillFullStep, upd, hq]
      · rw [ih3]
        rw [show (fillFullStep p isSell curr rest st).freeList = curr :: st.freeList from rfl]
        simp [fullHandles, hs, List.reverse_cons]
      · rw [ih4]
        by_cases hu : (st.slots curr).user
        · rw [show (fillFullStep p isSell curr rest st).balance
                = if isSell then st.balance - (w32 ((st.slots curr).size * p) : Nat)
                  else st.balance + (w32 ((st.slots curr).size * p) : Nat)
              from by simp [fillFullStep, hu]]
          simp only [levelFills, hs, if_true, userNotionalW, userFills, List.filter_cons,
            hu, decide_True, if_true, List.map_cons, List.sum_cons]
          cases isSell <;> simp <;> ring
        · rw [show (fillFullStep p isSell curr rest st).balance = st.balance
              from by simp [fillFullStep, hu]]
          simp [levelFills, hs, userNotionalW, userFills, List.filter_cons, hu]
      · rw [ih5]
        by_cases hu : (st.slots curr).user
        · rw [show (fillFullStep p isSell curr rest st).sharesOpen
                = if isSell then st.sharesOpen + ((st.slots curr).size : Int)
                  else st.sharesOpen - ((st.slots curr).size : Int)
              from by simp [fillFullStep, hu]]
          simp only [levelFills, hs, if_true, userQty, userFills, List.filter_cons,
            hu, decide_True, if_true, List.map_cons, List.sum_cons]
          cases isSell <;> simp <;> ring
        · rw [show (fillFullStep p isSell curr rest st).sharesOpen = st.sharesOpen
              from by simp [fillFullStep, hu]]
          simp [levelFills, hs, userQty, userFills, List.filter_cons, hu]
      · rw [ih6]
        by_cases hu : (st.slots curr).user
        · rw [show (fillFullStep p isSell curr rest st).userOrders
                = st.userOrders.erase curr from by simp [fillFullStep, hu]]
          simp [fullHandles, hs, List.filter_cons, hu]
        · rw [show (fillFullStep p isSell curr rest st).userOrders = st.userOrders
              from by simp [fillFullStep, hu]]
          simp [fullHandles, hs, List.filter_cons, hu]
      · rw [ih7]
        simp [partFillAt, hs]
    · rw [show fillOrders p isSell (curr :: rest) size o st
            = (fillPartStep p isSell curr size st, 0, w32 (o + size * p))
          from by simp [fillOrders, hs]]
      refine ⟨?_, ?_, ?_, ?_, ?_, ?_, ?_, rfl, rfl, rfl, rfl, rfl, rfl, rfl, rfl⟩
      · simpa [fillPartStep, levelAfterFill, hs] using hsync
      · intro q _; rfl
      · simp [fillPartStep, fullHandles, hs]
      · by_cases hu : (st.slots curr).user
        · rw [show (fillPartStep p isSell curr size st).balance
                = if isSell then st.balance - (w32 (size * p) : Nat)
                  else st.balance + (w32 (size * p) : Nat)
              from by simp [fillPartStep, hu]]
          simp only [levelFills, hs, if_false, userNotionalW, userFills, List.filter_cons,
            hu, decide_True, if_true, List.filter_nil, List.map_cons, List.map_nil,
            List.sum_cons, List.sum_nil]
          cases isSell <;> simp <;> ring
        · rw [show (fillPartStep p isSell curr size st).balance = st.balance
              from by simp [fillPartStep, hu]]
          simp [levelFills, hs, userNotionalW, userFills, List.filter_cons, hu]
      · by_cases hu : (st.slots curr).user
        · rw [show (fillPartStep p isSell curr size st).sharesOpen
                = if isSell then st.sharesOpen + (size : Int)
                  else st.sharesOpen - (size : Int)
              from by simp [fillPartStep, hu]]
          simp only [levelFills, hs, if_false, userQty, userFills, List.filter_cons,
            hu, decide_True, if_true, List.filter_nil, List.map_cons, List.map_nil,
            List.sum_cons, List.sum_nil]
          cases isSell <;> simp <;> ring
        · rw [show (fillPartStep p isSell curr size st).sharesOpen = st.sharesOpen
              from by simp [fillPartStep, hu]]
          simp [levelFills, hs, userQty, userFills, List.filter_cons, hu]
      · simp [fillPartStep, fullHandles, hs]
      · simp [fillPartStep, partFillAt, hs]

/-! ### Level-step characterisations for the market scans -/

lemma updateLimitOrders_eq (p t : Nat) (st : EngineState) :
    updateLimitOrders p t st =
      { st with
        levels := upd st.levels p
          ((st.levels p).filter fun h => ! isExpired st.slots t h)
        freeList := ((st.levels p).filter (isExpired st.slots t)).reverse ++ st.freeList } := by
  unfold updateLimitOrders
  rw [updateLimitOrdersList_eq]
  simp only [pushAll_eq]

lemma fillOrders_slots_fields (p : Nat) (isSell : Bool) (lvl : List Nat)
    (size o : Nat) (st : EngineState) (hsync : st.levels p = lvl) :
    ∀ h, ((fillOrders p isSell lvl size o st).1.slots h).expirationTime
            = (st.slots h).expirationTime
      ∧ ((fillOrders p isSell lvl size o st).1.slots h).user = (st.slots h).user
      ∧ ((fillOrders p isSell lvl size o st).1.slots h).p = (st.slots h).p := by
  intro h
  have h7 := (fillOrders_state p isSell lvl size o st hsync).2.2.2.2.2.2.1
  rw [h7]
  cases hpf : partFillAt st.slots lvl size with
  | none => exact ⟨rfl, rfl, rfl⟩
  | some f =>
    by_cases hh : h = f.1
    · subst hh; simp [upd]
    · simp [upd, hh]

/-- `sellLevelStep` characterised: the sweep turns the level into its
unexpired survivors, the fills are the ghost fills of the survivors, and the
state, remaining size and total are exactly what `fillOrders` produces. -/
lemma sellLevelStep_spec (t p size o : Nat) (st : EngineState) :
    sellLevelStep t p size o st =
      { st := (fillOrders p true
                  ((st.levels p).filter fun h => ! isExpired st.slots t h) size o
                  { st with
                    bid := p
                    levels := upd st.levels p
                      ((st.levels p).filter fun h => ! isExpired st.slots t h)
                    freeList := ((st.levels p).filter (isExpired st.slots t)).reverse
                      ++ st.freeList }).1
        size := (fillOrders p true
                  ((st.levels p).filter fun h => ! isExpired st.slots t h) size o
                  { st with
                    bid := p
                    levels := upd st.levels p
                      ((st.levels p).filter fun h => ! isExpired st.slots t h)
                    freeList := ((st.levels p).filter (isExpired st.slots t)).reverse
                      ++ st.freeList }).2.1
        o := (fillOrders p true
                  ((st.levels p).filter fun h => ! isExpired st.slots t h) size o
                  { st with
                    bid := p
                    levels := upd st.levels p
                      ((st.levels p).filter fun h => ! isExpired st.slots t h)
                    freeList := ((st.levels p).filter (isExpired st.slots t)).reverse
                      ++ st.freeList }).2.2
        fills := levelFills st.slots
                  ((st.levels p).filter fun h => ! isExpired st.slots t h) size } := by
  unfold sellLevelStep
  rw [updateLimitOrders_eq]
  simp [upd]

/-- `buyLevelStep` characterised, symmetric to `sellLevelStep_spec`. -/
lemma buyLevelStep_spec (t p size o : Nat) (st : EngineState) :
    buyLevelStep t p size o st =
      { st := (fillOrders p false
                  ((st.levels p).filter fun h => ! isExpired st.slots t h) size o
                  { st with
                    ask := p
                    levels := upd st.levels p
                      ((st.levels p).filter fun h => ! isExpired st.slots t h)
                    freeList := ((st.levels p).filter (isExpired st.slots t)).reverse
                      ++ st.freeList }).1
        size := (fillOrders p false
                  ((st.levels p).filter fun h => ! isExpired st.slots t h) size o
                  { st with
                    ask := p
                    levels := upd st.levels p
                      ((st.levels p).filter fun h => ! isExpired st.slots t h)
                    freeList := ((st.levels p).filter (isExpired st.slots t)).reverse
                      ++ st.freeList }).2.1
        o := (fillOrders p false
                  ((st.levels p).filter fun h => ! isExpired st.slots t h) size o
                  { st with
                    ask := p
                    levels := upd st.levels p
                      ((st.levels p).filter fun h => ! isExpired st.slots t h)
                    freeList := ((st.levels p).filter (isExpired st.slots t)).reverse
                      ++ st.freeList }).2.2
        fills := levelFills st.slots
                  ((st.levels p).filter fun h => ! isExpired st.slots t h) size } := by
  unfold buyLevelStep
  rw [updateLimitOrders_eq]
  simp [upd]

/-- The projections of `sellLevelStep` needed by the scan inductions. -/
lemma sellLevelStep_parts (t p size o : Nat) (st : EngineState) :
    (sellLevelStep t p size o st).size
        = size - fillsQty (sellLevelStep t p size o st).fills
    ∧ fillsQty (sellLevelStep t p size o st).fills ≤ size
    ∧ (sellLevelStep t p size o st).st.bid = p
    ∧ (sellLevelStep t p size o st).st.ask = st.ask
    ∧ (∀ h, (((sellLevelStep t p size o st).st.slots h).expirationTime
              = (st.slots h).expirationTime)
          ∧ ((sellLevelStep t p size o st).st.slots h).user = (st.slots h).user)
    ∧ (∀ f ∈ (sellLevelStep t p size o st).fills, ¬ (st.slots f.1).expirationTime ≤ t) := by
  rw [sellLevelStep_spec]
  have hsync : ({ st with
      bid := p
      levels := upd st.levels p
        ((st.levels p).filter fun h => ! isExpired st.slots t h)
      freeList := ((st.levels p).filter (isExpired st.slots t)).reverse
        ++ st.freeList } : EngineState).levels p
      = (st.levels p).filter fun h => ! isExpired st.slots t h := by
    simp [upd]
  refine ⟨?_, ?_, ?_, ?_, ?_, ?_⟩
  · exact fillOrders_size p true _ size o _
  · exact fillsQty_levelFills_le st.slots _ size
  · exact (fillOrders_state p true _ size o _ hsync).2.2.2.2.2.2.2.1
  · exact (fillOrders_state p true _ size o _ hsync).2.2.2.2.2.2.2.2.1
  · intro h
    have hf := fillOrders_slots_fields p true _ size o _ hsync h
    exact ⟨hf.1, hf.2.1⟩
  · intro f hf
    have hmem := mem_levelFills st.slots _ size f hf
    rw [List.mem_filter] at hmem
    have h2 := hmem.2
    simp only [isExpired, Bool.not_eq_true', decide_eq_false_iff_not] at h2
    exact h2

/-- The `u32` total produced by `sellLevelStep`. -/
lemma sellLevelStep_o (t p size o : Nat) (st : EngineState) (ho : o < 4294967296) :
    (sellLevelStep t p size o st).o
      = w32 (o + fillsNotional p (sellLevelStep t p size o st).fills) := by
  rw [sellLevelStep_spec]
  exact fillOrders_o p true _ size o _ ho

/-- The projections of `buyLevelStep` needed by the scan inductions. -/
lemma buyLevelStep_parts (t p size o : Nat) (st : EngineState) :
    (buyLevelStep t p size o st).size
        = size - fillsQty (buyLevelStep t p size o st).fills
    ∧ fillsQty (buyLevelStep t p size o st).fills ≤ size
    ∧ (buyLevelStep t p size o st).st.ask = p
    ∧ (buyLevelStep t p size o st).st.bid = st.bid
    ∧ (∀ h, (((buyLevelStep t p size o st).st.slots h).expirationTime
              = (st.slots h).expirationTime)
          ∧ ((buyLevelStep t p size o st).st.slots h).user = (st.slots h).user)
    ∧ (∀ f ∈ (buyLevelStep t p size o st).fills, ¬ (st.slots f.1).expirationTime ≤ t) := by
  rw [buyLevelStep_spec]
  have hsync : ({ st with
      ask := p
      levels := upd st.levels p
        ((st.levels p).filter fun h => ! isExpired st.slots t h)
      freeList := ((st.levels p).filter (isExpired st.slots t)).reverse
        ++ st.freeList } : EngineState).levels p
      = (st.levels p).filter fun h => ! isExpired st.slots t h := by
    simp [upd]
  refine ⟨?_, ?_, ?_, ?_, ?_, ?_⟩
  · exact fillOrders_size p false _ size o _
  · exact fillsQty_levelFills_le st.slots _ size
  · exact (fillOrders_state p false _ size o _ hsync).2.2.2.2.2.2.2.2.1
  · exact (fillOrders_state p false _ size o _ hsync).2.2.2.2.2.2.2.1
  · intro h
    have hf := fillOrders_slots_fields p false _ size o _ hsync h
    exact ⟨hf.1, hf.2.1⟩
  · intro f hf
    have hmem := mem_levelFills st.slots _ size f hf
    rw [List.mem_filter] at hmem
    have h2 := hmem.2
    simp only [isExpired, Bool.not_eq_true', decide_eq_false_iff_not] at h2
    exact h2

/-- The `u32` total produced by `buyLevelStep`. -/
lemma buyLevelStep_o (t p size o : Nat) (st : EngineState) (ho : o < 4294967296) :
    (buyLevelStep t p size o st).o
      = w32 (o + fillsNotional p (buyLevelStep t p size o st).fills) := by
  rw [buyLevelStep_spec]
  exact fillOrders_o p false _ size o _ ho

lemma traceNotional_cons (p : Nat) (fs : List (Nat × Nat))
    (tr : List (Nat × List (Nat × Nat))) :
    traceNotional ((p, fs) :: tr) = fillsNotional p fs + traceNotional tr := by
  simp [traceNotional, fillsNotional]

lemma traceQty_cons (p : Nat) (fs : List (Nat × Nat))
    (tr : List (Nat × List (Nat × Nat))) :
    traceQty ((p, fs) :: tr) = fillsQty fs + traceQty tr := by
  simp [traceQty]

/-! ### Market-scan inductions -/

/-- Conservation for the sell scan: on success the returned total is the
`u32`-wrapped accumulated notional of the trace, and the trace consumes the
entire requested size. -/
lemma marketSellGo_conserve (t : Nat) :
    ∀ (fuel p size o : Nat) (st : EngineState) r, o < 4294967296 →
      marketSellGo t fuel p size o st = some r →
      r.2.1 = w32 (o + traceNotional r.2.2) ∧ traceQty r.2.2 = size := by
  intro fuel
  induction fuel with
  | zero =>
    intro p size o st r ho h
    simp only [marketSellGo] at h
    by_cases hz : size = 0
    · rw [if_pos hz] at h
      cases h
      subst hz
      exact ⟨by simp [traceNotional, w32, Nat.mod_eq_of_lt ho], by simp [traceQty]⟩
    · rw [if_neg hz] at h; cases h
  | succ fuel ih =>
    intro p size o st r ho h
    simp only [marketSellGo] at h
    by_cases hz : size = 0
    · rw [if_pos hz] at h
      cases h
      subst hz
      exact ⟨by simp [traceNotional, w32, Nat.mod_eq_of_lt ho], by simp [traceQty]⟩
    · rw [if_neg hz] at h
      by_cases he : st.levels p = []
      · rw [if_pos he] at h
        by_cases hp : p = 0
        · rw [if_pos hp] at h; cases h
        · rw [if_neg hp] at h
          exact ih _ _ _ _ r ho h
      · rw [if_neg he] at h
        obtain ⟨hsz, hle, _, _, _, _⟩ := sellLevelStep_parts t p size o st
        have ho1 := sellLevelStep_o t p size o st ho
        by_cases hr0 : (sellLevelStep t p size o st).size = 0
        · rw [if_pos hr0] at h
          cases h
          refine ⟨?_, ?_⟩
          · rw [ho1, traceNotional_cons]
            simp [traceNotional]
          · rw [traceQty_cons]
            have h0 : size - fillsQty (sellLevelStep t p size o st).fills = 0 := by
              rw [← hsz]; exact hr0
            simp [traceQty]
            omega
        · rw [if_neg hr0] at h
          by_cases hp : p = 0
          · rw [if_pos hp] at h; cases h
          · rw [if_neg hp] at h
            cases hq : marketSellGo t fuel (p - 1) (sellLevelStep t p size o st).size
                (sellLevelStep t p size o st).o (sellLevelStep t p size o st).st with
            | none => rw [hq] at h; cases h
            | some q =>
              rw [hq] at h
              cases h
              obtain ⟨ihA, ihB⟩ := ih _ _ _ _ q (by rw [ho1]; exact w32_lt _) hq
              constructor
              · show q.2.1 = w32 (o + traceNotional ((p, (sellLevelStep t p size o st).fills) :: q.2.2))
                rw [ihA, ho1, w32_add_left, traceNotional_cons]
                congr 1
                omega
              · show traceQty ((p, (sellLevelStep t p size o st).fills) :: q.2.2) = size
                rw [traceQty_cons, ihB, hsz]
                omega

/-- Conservation for the buy scan, symmetric to `marketSellGo_conserve`. -/
lemma marketBuyGo_conserve (t : Nat) :
    ∀ (fuel p size o : Nat) (st : EngineState) r, o < 4294967296 →
      marketBuyGo t fuel p size o st = some r →
      r.2.1 = w32 (o + traceNotional r.2.2) ∧ traceQty r.2.2 = size := by
  intro fuel
  induction fuel with
  | zero =>
    intro p size o st r ho h
    simp only [marketBuyGo] at h
    by_cases hz : size = 0
    · rw [if_pos hz] at h
      cases h
      subst hz
      exact ⟨by simp [traceNotional, w32, Nat.mod_eq_of_lt ho], by simp [traceQty]⟩
    · rw [if_neg hz] at h; cases h
  | succ fuel ih =>
    intro p size o st r ho h
    simp only [marketBuyGo] at h
    by_cases hz : size = 0
    · rw [if_pos hz] at h
      cases h
      subst hz
      exact ⟨by simp [traceNotional, w32, Nat.mod_eq_of_lt ho], by simp [traceQty]⟩
    · rw [if_neg hz] at h
      by_cases hN : NUM_PRICES ≤ p
      · rw [if_pos hN] at h; cases h
      · rw [if_neg hN] at h
        by_cases he : st.levels p = []
        · rw [if_pos he] at h
          exact ih _ _ _ _ r ho h
        · rw [if_neg he] at h
          obtain ⟨hsz, hle, _, _, _, _⟩ := buyLevelStep_parts t p size o st
          have ho1 := buyLevelStep_o t p size o st ho
          cases hq : marketBuyGo t fuel (p + 1) (buyLevelStep t p size o st).size
              (buyLevelStep t p size o st).o (buyLevelStep t p size o st).st with
          | none => rw [hq] at h; cases h
          | some q =>
            rw [hq] at h
            cases h
            obtain ⟨ihA, ihB⟩ := ih _ _ _ _ q (by rw [ho1]; exact w32_lt _) hq
            constructor
            · show q.2.1 = w32 (o + traceNotional ((p, (buyLevelStep t p size o st).fills) :: q.2.2))
              rw [ihA, ho1, w32_add_left, traceNotional_cons]
              congr 1
              omega
            · show traceQty ((p, (buyLevelStep t p size o st).fills) :: q.2.2) = size
              rw [traceQty_cons, ihB, hsz]
              omega

/-- The sell scan only lowers the bid (to the last visited price) and never
touches the ask. -/
lemma marketSellGo_bid_ask (t : Nat) :
    ∀ (fuel p size o : Nat) (st : EngineState) r,
      marketSellGo t fuel p size o st = some r →
      r.1.ask = st.ask ∧ (r.1.bid = st.bid ∨ r.1.bid ≤ p) := by
  intro fuel
  induction fuel with
  | zero =>
    intro p size o st r h
    simp only [marketSellGo] at h
    by_cases hz : size = 0
    · rw [if_pos hz] at h; cases h; exact ⟨rfl, Or.inl rfl⟩
    · rw [if_neg hz] at h; cases h
  | succ fuel ih =>
    intro p size o st r h
    simp only [marketSellGo] at h
    by_cases hz : size = 0
    · rw [if_pos hz] at h; cases h; exact ⟨rfl, Or.inl rfl⟩
    · rw [if_neg hz] at h
      by_cases he : st.levels p = []
      · rw [if_pos he] at h
        by_cases hp : p = 0
        · rw [if_pos hp] at h; cases h
        · rw [if_neg hp] at h
          obtain ⟨h1, h2⟩ := ih _ _ _ _ r h
          refine ⟨h1, ?_⟩
          rcases h2 with h2 | h2
          · exact Or.inl h2
          · exact Or.inr (by omega)
      · rw [if_neg he] at h
        obtain ⟨_, _, hbid, hask, _, _⟩ := sellLevelStep_parts t p size o st
        by_cases hr0 : (sellLevelStep t p size o st).size = 0
        · rw [if_pos hr0] at h; cases h
          exact ⟨hask, Or.inr (le_of_eq hbid)⟩
        · rw [if_neg hr0] at h
          by_cases hp : p = 0
          · rw [if_pos hp] at h; cases h
          · rw [if_neg hp] at h
            cases hq : marketSellGo t fuel (p - 1) (sellLevelStep t p size o st).size
                (sellLevelStep t p size o st).o (sellLevelStep t p size o st).st with
            | none => rw [hq] at h; cases h
            | some q =>
              rw [hq] at h; cases h
              obtain ⟨h1, h2⟩ := ih _ _ _ _ q hq
              refine ⟨h1.trans hask, Or.inr ?_⟩
              show q.1.bid ≤ p
              rcases h2 with h2 | h2
              · omega
              · omega

/-- The buy scan only raises the ask (to the last visited price) and never
touches the bid. -/
lemma marketBuyGo_bid_ask (t : Nat) :
    ∀ (fuel p size o : Nat) (st : EngineState) r,
      marketBuyGo t fuel p size o st = some r →
      r.1.bid = st.bid ∧ (r.1.ask = st.ask ∨ p ≤ r.1.ask) := by
  intro fuel
  induction fuel with
  | zero =>
    intro p size o st r h
    simp only [marketBuyGo] at h
    by_cases hz : size = 0
    · rw [if_pos hz] at h; cases h; exact ⟨rfl, Or.inl rfl⟩
    · rw [if_neg hz] at h; cases h
  | succ fuel ih =>
    intro p size o st r h
    simp only [marketBuyGo] at h
    by_cases hz : size = 0
    · rw [if_pos hz] at h; cases h; exact ⟨rfl, Or.inl rfl⟩
    · rw [if_neg hz] at h
      by_cases hN : NUM_PRICES ≤ p
      · rw [if_pos hN] at h; cases h
      · rw [if_neg hN] at h
        by_cases he : st.levels p = []
        · rw [if_pos he] at h
          obtain ⟨h1, h2⟩ := ih _ _ _ _ r h
          refine ⟨h1, ?_⟩
          rcases h2 with h2 | h2
          · exact Or.inl h2
          · exact Or.inr (by omega)
        · rw [if_neg he] at h
          obtain ⟨_, _, hask, hbid, _, _⟩ := buyLevelStep_parts t p size o st
          cases hq : marketBuyGo t fuel (p + 1) (buyLevelStep t p size o st).size
              (buyLevelStep t p size o st).o (buyLevelStep t p size o st).st with
          | none => rw [hq] at h; cases h
          | some q =>
            rw [hq] at h; cases h
            obtain ⟨h1, h2⟩ := ih _ _ _ _ q hq
            refine ⟨h1.trans hbid, Or.inr ?_⟩
            show p ≤ q.1.ask
            rcases h2 with h2 | h2
            · omega
            · omega

/-- On success, the buy scan leaves the ask unchanged when it visited no
level, and at the last visited price otherwise. -/
lemma marketBuyGo_last (t : Nat) :
    ∀ (fuel p size o : Nat) (st : EngineState) r,
      marketBuyGo t fuel p size o st = some r →
      (r.2.2 = [] → r.1.ask = st.ask)
      ∧ (∀ lv, r.2.2.getLast? = some lv → r.1.ask = lv.1) := by
  intro fuel
  induction fuel with
  | zero =>
    intro p size o st r h
    simp only [marketBuyGo] at h
    by_cases hz : size = 0
    · rw [if_pos hz] at h; cases h
      exact ⟨fun _ => rfl, fun lv hlv => by cases hlv⟩
    · rw [if_neg hz] at h; cases h
  | succ fuel ih =>
    intro p size o st r h
    simp only [marketBuyGo] at h
    by_cases hz : size = 0
    · rw [if_pos hz] at h; cases h
      exact ⟨fun _ => rfl, fun lv hlv => by cases hlv⟩
    · rw [if_neg hz] at h
      by_cases hN : NUM_PRICES ≤ p
      · rw [if_pos hN] at h; cases h
      · rw [if_neg hN] at h
        by_cases he : st.levels p = []
        · rw [if_pos he] at h
          exact ih _ _ _ _ r h
        · rw [if_neg he] at h
          obtain ⟨_, _, hask, _, _, _⟩ := buyLevelStep_parts t p size o st
          cases hq : marketBuyGo t fuel (p + 1) (buyLevelStep t p size o st).size
              (buyLevelStep t p size o st).o (buyLevelStep t p size o st).st with
          | none => rw [hq] at h; cases h
          | some q =>
            rw [hq] at h; cases h
            obtain ⟨ih1, ih2⟩ := ih _ _ _ _ q hq
            constructor
            · intro hnil
              exact absurd hnil (by simp)
            · intro lv hlv
              have hlv2 : ((p, (buyLevelStep t p size o st).fills) :: q.2.2).getLast?
                  = some lv := hlv
              show q.1.ask = lv.1
              cases hrest : q.2.2 with
              | nil =>
                rw [hrest] at hlv2
                simp only [List.getLast?_singleton, Option.some_inj] at hlv2
                rw [← hlv2]
                exact (ih1 hrest).trans hask
              | cons c cs =>
                rw [hrest, List.getLast?_cons_cons] at hlv2
                apply ih2 lv
                rw [hrest]
                exact hlv2

/-- The prices a buy scan visits are at least the starting price, below
`NUM_PRICES`, and strictly ascending along the trace. -/
lemma marketBuyGo_prices (t : Nat) :
    ∀ (fuel p size o : Nat) (st : EngineState) r,
      marketBuyGo t fuel p size o st = some r →
      (∀ lv ∈ r.2.2, p ≤ lv.1 ∧ lv.1 < NUM_PRICES)
      ∧ List.Chain' (· < ·) (r.2.2.map Prod.fst) := by
  intro fuel
  induction fuel with
  | zero =>
    intro p size o st r h
    simp only [marketBuyGo] at h
    by_cases hz : size = 0
    · rw [if_pos hz] at h; cases h
      exact ⟨by simp, by simp⟩
    · rw [if_neg hz] at h; cases h
  | succ fuel ih =>
    intro p size o st r h
    simp only [marketBuyGo] at h
    by_cases hz : size = 0
    · rw [if_pos hz] at h; cases h
      exact ⟨by simp, by simp⟩
    · rw [if_neg hz] at h
      by_cases hN : NUM_PRICES ≤ p
      · rw [if_pos hN] at h; cases h
      · rw [if_neg hN] at h
        by_cases he : st.levels p = []
        · rw [if_pos he] at h
          obtain ⟨h1, h2⟩ := ih _ _ _ _ r h
          exact ⟨fun lv hlv => ⟨by have := (h1 lv hlv).1; omega, (h1 lv hlv).2⟩, h2⟩
        · rw [if_neg he] at h
          cases hq : marketBuyGo t fuel (p + 1) (buyLevelStep t p size o st).size
              (buyLevelStep t p size o st).o (buyLevelStep t p size o st).st with
          | none => rw [hq] at h; cases h
          | some q =>
            rw [hq] at h; cases h
            obtain ⟨ih1, ih2⟩ := ih _ _ _ _ q hq
            constructor
            · intro lv hlv
              rcases List.mem_cons.mp hlv with hlv | hlv
              · subst hlv; exact ⟨le_refl _, by omega⟩
              · exact ⟨by have := (ih1 lv hlv).1; omega, (ih1 lv hlv).2⟩
            · rw [List.map_cons]
              rw [List.chain'_cons']
              refine ⟨?_, ih2⟩
              intro b hb
              have hbmem : b ∈ q.2.2.map Prod.fst := List.mem_of_mem_head? hb
              obtain ⟨lv, hlv, hfst⟩ := List.mem_map.mp hbmem
              have := (ih1 lv hlv).1
              omega

/-- The prices a sell scan visits are at most the starting price and
strictly descending along the trace. -/
lemma marketSellGo_prices (t : Nat) :
    ∀ (fuel p size o : Nat) (st : EngineState) r,
      marketSellGo t fuel p size o st = some r →
      (∀ lv ∈ r.2.2, lv.1 ≤ p)
      ∧ List.Chain' (· > ·) (r.2.2.map Prod.fst) := by
  intro fuel
  induction fuel with
  | zero =>
    intro p size o st r h
    simp only [marketSellGo] at h
    by_cases hz : size = 0
    · rw [if_pos hz] at h; cases h
      exact ⟨by simp, by simp⟩
    · rw [if_neg hz] at h; cases h
  | succ fuel ih =>
    intro p size o st r h
    simp only [marketSellGo] at h
    by_cases hz : size = 0
    · rw [if_pos hz] at h; cases h
      exact ⟨by simp, by simp⟩
    · rw [if_neg hz] at h
      by_cases he : st.levels p = []
      · rw [if_pos he] at h
        by_cases hp : p = 0
        · rw [if_pos hp] at h; cases h
        · rw [if_neg hp] at h
          obtain ⟨h1, h2⟩ := ih _ _ _ _ r h
          exact ⟨fun lv hlv => by have := h1 lv hlv; omega, h2⟩
      · rw [if_neg he] at h
        by_cases hr0 : (sellLevelStep t p size o st).size = 0
        · rw [if_pos hr0] at h; cases h
          exact ⟨by simp, by simp⟩
        · rw [if_neg hr0] at h
          by_cases hp : p = 0
          · rw [if_pos hp] at h; cases h
          · rw [if_neg hp] at h
            cases hq : marketSellGo t fuel (p - 1) (sellLevelStep t p size o st).size
                (sellLevelStep t p size o st).o (sellLevelStep t p size o st).st with
            | none => rw [hq] at h; cases h
            | some q =>
              rw [hq] at h; cases h
              obtain ⟨ih1, ih2⟩ := ih _ _ _ _ q hq
              constructor
              · intro lv hlv
                rcases List.mem_cons.mp hlv with hlv | hlv
                · subst hlv; exact le_refl _
                · have := ih1 lv hlv; omega
              · rw [List.map_cons]
                rw [List.chain'_cons']
                refine ⟨?_, ih2⟩
                intro b hb
                have hbmem : b ∈ q.2.2.map Prod.fst := List.mem_of_mem_head? hb
                obtain ⟨lv, hlv, hfst⟩ := List.mem_map.mp hbmem
                have := ih1 lv hlv
                omega

/-- Market sells never touch an order's expiration, ownership flag, or any
order already expired at the order time: every fill in the trace is of an
order whose expiration strictly exceeds `t` (the per-level sweep runs before
matching). -/
lemma marketSellGo_unexpired (t : Nat) :
    ∀ (fuel p size o : Nat) (st : EngineState) r,
      marketSellGo t fuel p size o st = some r →
      (∀ h, ((r.1.slots h).expirationTime = (st.slots h).expirationTime
          ∧ (r.1.slots h).user = (st.slots h).user))
      ∧ ∀ lv ∈ r.2.2, ∀ f ∈ lv.2, ¬ (st.slots f.1).expirationTime ≤ t := by
  intro fuel
  induction fuel with
  | zero =>
    intro p size o st r h
    simp only [marketSellGo] at h
    by_cases hz : size = 0
    · rw [if_pos hz] at h; cases h
      exact ⟨fun _ => ⟨rfl, rfl⟩, by simp⟩
    · rw [if_neg hz] at h; cases h
  | succ fuel ih =>
    intro p size o st r h
    simp only [marketSellGo] at h
    by_cases hz : size = 0
    · rw [if_pos hz] at h; cases h
      exact ⟨fun _ => ⟨rfl, rfl⟩, by simp⟩
    · rw [if_neg hz] at h
      by_cases he : st.levels p = []
      · rw [if_pos he] at h
        by_cases hp : p = 0
        · rw [if_pos hp] at h; cases h
        · rw [if_neg hp] at h
          exact ih _ _ _ _ r h
      · rw [if_neg he] at h
        obtain ⟨_, _, _, _, hslots, hfills⟩ := sellLevelStep_parts t p size o st
        by_cases hr0 : (sellLevelStep t p size o st).size = 0
        · rw [if_pos hr0] at h; cases h
          refine ⟨hslots, ?_⟩
          intro lv hlv f hf
          rcases List.mem_singleton.mp hlv with rfl
          exact hfills f hf
        · rw [if_neg hr0] at h
          by_cases hp : p = 0
          · rw [if_pos hp] at h; cases h
          · rw [if_neg hp] at h
            cases hq : marketSellGo t fuel (p - 1) (sellLevelStep t p size o st).size
                (sellLevelStep t p size o st).o (sellLevelStep t p size o st).st with
            | none => rw [hq] at h; cases h
            | some q =>
              rw [hq] at h; cases h
              obtain ⟨ihs, ihf⟩ := ih _ _ _ _ q hq
              constructor
              · intro hh
                obtain ⟨e1, u1⟩ := ihs hh
                obtain ⟨e2, u2⟩ := hslots hh
                exact ⟨e1.trans e2, u1.trans u2⟩
              · intro lv hlv f hf
                rcases List.mem_cons.mp hlv with rfl | hlv
                · exact hfills f hf
                · have := ihf lv hlv f hf
                  rw [(hslots f.1).1] at this
                  exact this

/-- The buy-scan analogue of `marketSellGo_unexpired`. -/
lemma marketBuyGo_unexpired (t : Nat) :
    ∀ (fuel p size o : Nat) (st : EngineState) r,
      marketBuyGo t fuel p size o st = some r →
      (∀ h, ((r.1.slots h).expirationTime = (st.slots h).expirationTime
          ∧ (r.1.slots h).user = (st.slots h).user))
      ∧ ∀ lv ∈ r.2.2, ∀ f ∈ lv.2, ¬ (st.slots f.1).expirationTime ≤ t := by
  intro fuel
  induction fuel with
  | zero =>
    intro p size o st r h
    simp only [marketBuyGo] at h
    by_cases hz : size = 0
    · rw [if_pos hz] at h; cases h
      exact ⟨fun _ => ⟨rfl, rfl⟩, by simp⟩
    · rw [if_neg hz] at h; cases h
  | succ fuel ih =>
    intro p size o st r h
    simp only [marketBuyGo] at h
    by_cases hz : size = 0
    · rw [if_pos hz] at h; cases h
      exact ⟨fun _ => ⟨rfl, rfl⟩, by simp⟩
    · rw [if_neg hz] at h
      by_cases hN : NUM_PRICES ≤ p
      · rw [if_pos hN] at h; cases h
      · rw [if_neg hN] at h
        by_cases he : st.levels p = []
        · rw [if_pos he] at h
          exact ih _ _ _ _ r h
        · rw [if_neg he] at h
          obtain ⟨_, _, _, _, hslots, hfills⟩ := buyLevelStep_parts t p size o st
          cases hq : marketBuyGo t fuel (p + 1) (buyLevelStep t p size o st).size
              (buyLevelStep t p size o st).o (buyLevelStep t p size o st).st with
          | none => rw [hq] at h; cases h
          | some q =>
            rw [hq] at h; cases h
            obtain ⟨ihs, ihf⟩ := ih _ _ _ _ q hq
            constructor
            · intro hh
              obtain ⟨e1, u1⟩ := ihs hh
              obtain ⟨e2, u2⟩ := hslots hh
              exact ⟨e1.trans e2, u1.trans u2⟩
            · intro lv hlv f hf
              rcases List.mem_cons.mp hlv with rfl | hlv
              · exact hfills f hf
              · have := ihf lv hlv f hf
                rw [(hslots f.1).1] at this
                exact this

/-! ### Amended market-order theorems (C3, C10) -/

/-- Claim C3 (amended): a market buy consumes resting sells level by level
at strictly ascending prices starting at the ask, within each level head to
tail (the consumed handles are a take-from-the-front of the level list), it
fills the full requested size, and it returns the sum of price * quantity
over all consumed portions reduced modulo 2^32 (the running total is a
`u32`); symmetrically a market sell consumes at strictly descending prices
from the bid and returns that wrapped sum. -/
theorem c3_amended :
    (∀ (size t : Nat) (st : EngineState) r,
        marketBuy size t st = some r →
        r.2.1 = w32 (traceNotional r.2.2)
        ∧ traceQty r.2.2 = size
        ∧ (∀ lv ∈ r.2.2, st.ask ≤ lv.1)
        ∧ List.Chain' (· < ·) (r.2.2.map Prod.fst))
    ∧ (∀ (size t : Nat) (st : EngineState) r,
        marketSell size t st = some r →
        r.2.1 = w32 (traceNotional r.2.2)
        ∧ traceQty r.2.2 = size
        ∧ (∀ lv ∈ r.2.2, lv.1 ≤ st.bid)
        ∧ List.Chain' (· > ·) (r.2.2.map Prod.fst))
    ∧ (∀ (slots : Nat → Order) (lvl : List Nat) (size : Nat),
        ∃ k, (levelFills slots lvl size).map Prod.fst = lvl.take k) := by
  refine ⟨?_, ?_, levelFills_handles_take⟩
  · intro size t st r h
    obtain ⟨h1, h2⟩ := marketBuyGo_conserve t _ _ _ _ _ r (by decide) h
    obtain ⟨h3, h4⟩ := marketBuyGo_prices t _ _ _ _ _ r h
    exact ⟨by simpa using h1, h2, fun lv hlv => (h3 lv hlv).1, h4⟩
  · intro size t st r h
    obtain ⟨h1, h2⟩ := marketSellGo_conserve t _ _ _ _ _ r (by decide) h
    obtain ⟨h3, h4⟩ := marketSellGo_prices t _ _ _ _ _ r h
    exact ⟨by simpa using h1, h2, h3, h4⟩

/-- Witness for `c3_amended` at the concrete overflow scenario. -/
theorem c3_amended_witness :
    c3R.2.1 = w32 (traceNotional c3R.2.2)
    ∧ traceQty c3R.2.2 = 67108864
    ∧ (∀ lv ∈ c3R.2.2, c3Base.ask ≤ lv.1)
    ∧ List.Chain' (· < ·) (c3R.2.2.map Prod.fst) :=
  c3_amended.1 67108864 5 c3Base c3R (optEqSomeGetD _ _ (by decide))

/-- Claim C10 (amended): a market order can never fill a withdrawn (or
otherwise expired) order, because each visited level is swept before it is
matched: every portion consumed by a market sell or market buy belongs to an
order whose expiration strictly exceeds the order time — in particular never
to an order carrying the withdrawal sentinel expiration 0 — so the ledger is
only ever updated for unexpired resting orders.  (The concrete run in the
counterexample shows the withdrawn order being freed unfilled, with the
ledger untouched.) -/
theorem c10_amended :
    (∀ (size t : Nat) (st : EngineState) r,
        marketSell size t st = some r →
        ∀ lv ∈ r.2.2, ∀ f ∈ lv.2, t < (st.slots f.1).expirationTime
          ∧ (st.slots f.1).expirationTime ≠ 0)
    ∧ (∀ (size t : Nat) (st : EngineState) r,
        marketBuy size t st = some r →
        ∀ lv ∈ r.2.2, ∀ f ∈ lv.2, t < (st.slots f.1).expirationTime
          ∧ (st.slots f.1).expirationTime ≠ 0) := by
  constructor
  · intro size t st r h lv hlv f hf
    have := (marketSellGo_unexpired t _ _ _ _ _ r h).2 lv hlv f hf
    omega
  · intro size t st r h lv hlv f hf
    have := (marketBuyGo_unexpired t _ _ _ _ _ r h).2 lv hlv f hf
    omega

/-- Witness for `c10_amended` at the concrete withdrawn-order scenario. -/
theorem c10_amended_witness :
    ∀ lv ∈ c10R.2.2, ∀ f ∈ lv.2, 50 < (c10Base.slots f.1).expirationTime
      ∧ (c10Base.slots f.1).expirationTime ≠ 0 :=
  c10_amended.1 1 50 c10Base c10R (optEqSomeGetD _ _ (by decide))

/-! ### Bid/ask walk characterisations -/

lemma walkBidDown_spec (levels : Nat → List Nat) :
    ∀ (fuel b b' : Nat), walkBidDown levels fuel b = some b' →
      b' ≤ b ∧ levels b' ≠ [] ∧ ∀ q, b' < q → q ≤ b → levels q = [] := by
  intro fuel
  induction fuel with
  | zero =>
    intro b b' h
    unfold walkBidDown at h
    by_cases hne : levels b = []
    · rw [if_neg (not_not_intro hne)] at h; cases h
    · rw [if_pos hne] at h
      cases h
      exact ⟨le_refl _, hne, fun q h1 h2 => absurd (lt_of_lt_of_le h1 h2) (lt_irrefl _)⟩
  | succ fuel ih =>
    intro b b' h
    unfold walkBidDown at h
    by_cases hne : levels b = []
    · rw [if_neg (not_not_intro hne)] at h
      by_cases hb : b = 0
      · rw [if_pos hb] at h; cases h
      · rw [if_neg hb] at h
        obtain ⟨h1, h2, h3⟩ := ih (b - 1) b' h
        refine ⟨le_trans h1 (Nat.sub_le b 1), h2, fun q hq1 hq2 => ?_⟩
        by_cases hqb : q = b
        · subst hqb; exact hne
        · exact h3 q hq1 (by omega)
    · rw [if_pos hne] at h
      cases h
      exact ⟨le_refl _, hne, fun q h1 h2 => absurd (lt_of_lt_of_le h1 h2) (lt_irrefl _)⟩

lemma walkAskUp_spec (levels : Nat → List Nat) :
    ∀ (fuel a a' : Nat), walkAskUp levels fuel a = some a' →
      a ≤ a' ∧ levels a' ≠ [] ∧ ∀ q, a ≤ q → q < a' → levels q = [] := by
  intro fuel
  induction fuel with
  | zero =>
    intro a a' h
    unfold walkAskUp at h
    by_cases hne : levels a = []
    · rw [if_neg (not_not_intro hne)] at h; cases h
    · rw [if_pos hne] at h
      cases h
      exact ⟨le_refl _, hne, fun q h1 h2 => absurd (lt_of_le_of_lt h1 h2) (lt_irrefl _)⟩
  | succ fuel ih =>
    intro a a' h
    unfold walkAskUp at h
    by_cases hne : levels a = []
    · rw [if_neg (not_not_intro hne)] at h
      by_cases hN : NUM_PRICES ≤ a + 1
      · rw [if_pos hN] at h; cases h
      · rw [if_neg hN] at h
        obtain ⟨h1, h2, h3⟩ := ih (a + 1) a' h
        refine ⟨by omega, h2, fun q hq1 hq2 => ?_⟩
        by_cases hqa : q = a
        · subst hqa; exact hne
        · exact h3 q (by omega) hq2
    · rw [if_pos hne] at h
      cases h
      exact ⟨le_refl _, hne, fun q h1 h2 => absurd (lt_of_le_of_lt h1 h2) (lt_irrefl _)⟩

/-- `updateBidAndAsk` characterised: it only moves the two pointers — bid
down to the nearest non-empty level, ask up to the nearest non-empty level —
and the rest of the state is untouched. -/
lemma updateBidAndAsk_spec (st st' : EngineState)
    (h : updateBidAndAsk st = some st') :
    st'.levels = st.levels ∧ st'.slots = st.slots ∧ st'.freeList = st.freeList ∧
    st'.userOrders = st.userOrders ∧ st'.balance = st.balance ∧
    st'.sharesOpen = st.sharesOpen ∧
    st'.bid ≤ st.bid ∧ st.ask ≤ st'.ask ∧
    st.levels st'.bid ≠ [] ∧ st.levels st'.ask ≠ [] ∧
    (∀ q, st'.bid < q → q ≤ st.bid → st.levels q = []) ∧
    (∀ q, st.ask ≤ q → q < st'.ask → st.levels q = []) ∧
    st'.nextOrderCreation = st.nextOrderCreation ∧
    st'.targetTime = st.targetTime ∧
    st'.userMarketBuySize = st.userMarketBuySize ∧
    st'.userMarketSellSize = st.userMarketSellSize ∧
    st'.userLimitBuySize = st.userLimitBuySize ∧
    st'.userLimitSellSize = st.userLimitSellSize := by
  unfold updateBidAndAsk at h
  cases hb : walkBidDown st.levels (st.bid + 1) st.bid with
  | none => rw [hb] at h; cases h
  | some b =>
    rw [hb] at h
    cases ha : walkAskUp st.levels NUM_PRICES st.ask with
    | none => rw [ha] at h; cases h
    | some a =>
      rw [ha] at h
      cases h
      obtain ⟨hb1, hb2, hb3⟩ := walkBidDown_spec st.levels _ _ _ hb
      obtain ⟨ha1, ha2, ha3⟩ := walkAskUp_spec st.levels _ _ _ ha
      exact ⟨rfl, rfl, rfl, rfl, rfl, rfl, hb1, ha1, hb2, ha2, hb3, ha3,
        rfl, rfl, rfl, rfl, rfl, rfl⟩

/-- Claim C7 (amended): in the scenario — ask level 105 holding a single
fresh sell of size 5, next non-empty sell level at 107 — `marketBuy(5)`
consumes the level and leaves `ask` at 105, the last visited price (now
empty); the subsequent `updateBidAndAsk` refresh then advances the ask to
107, the next non-empty sell level.  In general the scan sets the ask to the
last visited price (unchanged if no level was visited), and the refresh
moves the ask to the nearest non-empty level at or above it. -/
theorem c7_amended :
    (c7R.1.ask = 105 ∧ c7R.1.levels 105 = [] ∧ c7R.2.1 = 525
      ∧ c7R2.ask = 107 ∧ c7R2.levels 107 = [2])
    ∧ (∀ (size t : Nat) (st : EngineState) r, marketBuy size t st = some r →
        (r.2.2 = [] → r.1.ask = st.ask)
        ∧ ∀ lv, r.2.2.getLast? = some lv → r.1.ask = lv.1)
    ∧ (∀ st st', updateBidAndAsk st = some st' →
        st.levels st'.ask ≠ [] ∧ st.ask ≤ st'.ask
        ∧ ∀ q, st.ask ≤ q → q < st'.ask → st.levels q = []) := by
  refine ⟨⟨by decide, by decide, by decide, by decide, by decide⟩, ?_, ?_⟩
  · intro size t st r h
    exact marketBuyGo_last t _ _ _ _ _ r h
  · intro st st' h
    obtain ⟨_, _, _, _, _, _, _, h8, _, h10, _, h12, _⟩ := updateBidAndAsk_spec st st' h
    exact ⟨h10, h8, h12⟩

/-- Witness for `c7_amended`: its general components applied to the
concrete scenario run. -/
theorem c7_amended_witness :
    ((c7R.2.2 = [] → c7R.1.ask = c7Base.ask)
      ∧ ∀ lv, c7R.2.2.getLast? = some lv → c7R.1.ask = lv.1)
    ∧ (c7R.1.levels c7R2.ask ≠ [] ∧ c7R.1.ask ≤ c7R2.ask
        ∧ ∀ q, c7R.1.ask ≤ q → q < c7R2.ask → c7R.1.levels q = []) :=
  ⟨c7_amended.2.1 5 10 c7Base c7R (optEqSomeGetD _ _ (by decide)),
   c7_amended.2.2 c7R.1 c7R2 (optEqSomeGetD _ _ (by decide))⟩

/-! ### The ledger/tracking behaviour of fills (C4) -/

lemma partFillAt_head (slots : Nat → Order) :
    ∀ (lvl : List Nat) (size hnd q : Nat), partFillAt slots lvl size = some (hnd, q) →
      q < (slots hnd).size ∧ ∃ tail, levelAfterFill slots lvl size = hnd :: tail := by
  intro lvl
  induction lvl with
  | nil => intro size hnd q h; cases h
  | cons curr rest ih =>
    intro size hnd q h
    by_cases hs : (slots curr).size ≤ size
    · rw [show partFillAt slots (curr :: rest) size
            = partFillAt slots rest (size - (slots curr).size)
          from by simp [partFillAt, hs]] at h
      obtain ⟨h1, tail, h2⟩ := ih _ hnd q h
      exact ⟨h1, tail, by simpa [levelAfterFill, hs] using h2⟩
    · rw [show partFillAt slots (curr :: rest) size = some (curr, size)
          from by simp [partFillAt, hs]] at h
      cases h
      exact ⟨by omega, rest, by simp [levelAfterFill, hs]⟩

lemma mem_foldl_erase :
    ∀ (hs l : List Nat) (x : Nat), x ∈ hs.foldl List.erase l → x ∈ l := by
  intro hs
  induction hs with
  | nil => intro l x hx; exact hx
  | cons h rest ih =>
    intro l x hx
    exact List.mem_of_mem_erase (ih (l.erase h) x hx)

lemma not_mem_foldl_erase :
    ∀ (hs l : List Nat) (a : Nat), l.Nodup → a ∈ hs → a ∉ hs.foldl List.erase l := by
  intro hs
  induction hs with
  | nil => intro l a _ ha; cases ha
  | cons h rest ih =>
    intro l a hnd ha hmem
    rcases List.mem_cons.mp ha with rfl | ha
    · have : a ∈ l.erase a := mem_foldl_erase rest (l.erase a) a hmem
      rw [List.Nodup.mem_erase_iff hnd] at this
      exact this.1 rfl
    · exact ih (l.erase h) a (hnd.erase h) ha hmem

/-- Claim C4 (amended): a market-order pass over a price level updates the
ledger by the mod-2^32 reduced notional of each user-owned consumed portion
(a market sell filling resting buys decreases balance and increases
position; a market buy filling resting sells increases balance and decreases
position, each by the consumed quantity); every fully consumed order is
returned to the pool and, when user-owned, removed from the outstanding
tracking list; a final partial fill leaves the order resting at the head of
the level with its size reduced by the consumed quantity. -/
theorem c4_amended :
    ∀ (p : Nat) (isSell : Bool) (lvl : List Nat) (size o : Nat) (st : EngineState),
      st.levels p = lvl →
      (fillOrders p isSell lvl size o st).1.balance
          = st.balance + (if isSell then -1 else 1)
              * userNotionalW st.slots p (levelFills st.slots lvl size)
      ∧ (fillOrders p isSell lvl size o st).1.sharesOpen
          = st.sharesOpen + (if isSell then 1 else -1)
              * userQty st.slots (levelFills st.slots lvl size)
      ∧ (∀ hnd ∈ fullHandles st.slots lvl size,
          hnd ∈ (fillOrders p isSell lvl size o st).1.freeList)
      ∧ (∀ hnd ∈ fullHandles st.slots lvl size, (st.slots hnd).user = true →
          st.userOrders.Nodup → hnd ∉ (fillOrders p isSell lvl size o st).1.userOrders)
      ∧ (∀ hnd q, partFillAt st.slots lvl size = some (hnd, q) →
          q < (st.slots hnd).size
          ∧ ((fillOrders p isSell lvl size o st).1.slots hnd).size
              = (st.slots hnd).size - q
          ∧ ∃ tail, (fillOrders p isSell lvl size o st).1.levels p = hnd :: tail) := by
  intro p isSell lvl size o st hsync
  obtain ⟨g1, _, g3, g4, g5, g6, g7, _⟩ := fillOrders_state p isSell lvl size o st hsync
  refine ⟨g4, g5, ?_, ?_, ?_⟩
  · intro hnd hmem
    rw [g3, List.mem_append, List.mem_reverse]
    exact Or.inl hmem
  · intro hnd hmem hu hnodup
    rw [g6]
    exact not_mem_foldl_erase _ _ _ hnodup
      (List.mem_filter.mpr ⟨hmem, by simp [hu]⟩)
  · intro hnd q hpf
    obtain ⟨hq, tail, htail⟩ := partFillAt_head st.slots lvl size hnd q hpf
    refine ⟨hq, ?_, tail, by rw [g1]; exact htail⟩
    rw [g7, hpf]
    simp [upd]

/-- Witness for `c4_amended`: the overflow scenario state, at which the
market sell fully consumes the user-owned resting buy. -/
theorem c4_amended_witness :
    (fillOrders 64 true [0] 67108864 0 c4Base).1.balance
        = c4Base.balance + (if true then -1 else 1)
            * userNotionalW c4Base.slots 64 (levelFills c4Base.slots [0] 67108864) :=
  (c4_amended 64 true [0] 67108864 0 c4Base (by decide)).1

/-! ### Placement of synthetic limit orders (C6) -/

lemma w64_idem (n : Nat) : w64 (w64 n) = w64 n := Nat.mod_mod_of_dvd n dvd_rfl

lemma w32_of_lt {n : Nat} (h : n < 4294967296) : w32 n = n := Nat.mod_eq_of_lt h

lemma w64_of_lt {n : Nat} (h : n < 18446744073709551616) : w64 n = n := Nat.mod_eq_of_lt h

lemma addLimitOrder_cons (cfg : Config) (p size exp : Nat) (user : Bool)
    (st : EngineState) (lo : Nat) (freeRest : List Nat)
    (hf : st.freeList = lo :: freeRest) :
    addLimitOrder cfg p size exp user st = some
      { st with
        freeList := freeRest
        slots := upd st.slots lo
          { size := w32 size, p := w32 p, expirationTime := w64 exp, user := user }
        userOrders := if user then st.userOrders ++ [lo] else st.userOrders
        levels :=
          if st.levels (w32 p) = [] then upd st.levels (w32 p) [lo]
          else if cfg.fillTiesInStackOrder then upd st.levels (w32 p) (lo :: st.levels (w32 p))
          else upd st.levels (w32 p) (st.levels (w32 p) ++ [lo]) } := by
  obtain ⟨s1, s2, s3, s4, s5, s6, s7, s8, s9, s10, s11, s12, s13, s14⟩ := st
  simp only at hf
  subst hf
  rfl

/-- The fresh order handle always lands in the level list of its price. -/
lemma addLimitOrder_mem (cfg : Config) (p size exp : Nat) (user : Bool)
    (st st' : EngineState) (h : addLimitOrder cfg p size exp user st = some st') :
    ∃ lo freeRest, st.freeList = lo :: freeRest ∧ lo ∈ st'.levels (w32 p)
      ∧ st'.slots lo
          = { size := w32 size, p := w32 p, expirationTime := w64 exp, user := user }
      ∧ st'.bid = st.bid ∧ st'.ask = st.ask
      ∧ st'.nextOrderCreation = st.nextOrderCreation := by
  cases hf : st.freeList with
  | nil =>
    rw [show addLimitOrder cfg p size exp user st = none from by
      unfold addLimitOrder
      rw [hf]] at h
    cases h
  | cons lo freeRest =>
    rw [addLimitOrder_cons cfg p size exp user st lo freeRest hf] at h
    cases h
    refine ⟨lo, freeRest, rfl, ?_, by simp [upd], rfl, rfl, rfl⟩
    by_cases he : st.levels (w32 p) = []
    · simp [he, upd]
    · by_cases ht : cfg.fillTiesInStackOrder <;> simp [he, ht, upd]

/-- What one synthetic limit-sell event does, under the PRNG range guards:
the order is placed at `bid + dist` and the ask is pulled down when
improved. -/
lemma synLimitSellStep_effect :
    (∀ (cfg : Config) (dist sizeDraw life delta : Nat) (st : EngineState) st',
        1 ≤ dist → st.bid + dist < NUM_PRICES →
        synLimitSellStep cfg dist sizeDraw life delta st = some st' →
        ∃ st1, addLimitOrder cfg (st.bid + dist) sizeDraw
            (w64 (st.nextOrderCreation + life)) false st = some st1
          ∧ (∃ lo, lo ∈ st1.levels (st.bid + dist)
              ∧ st1.slots lo = { size := w32 sizeDraw
                                 p := st.bid + dist
                                 expirationTime := w64 (st.nextOrderCreation + life)
                                 user := false })
          ∧ st.bid < st.bid + dist
          ∧ st'.bid = st.bid
          ∧ st'.ask = (if st.bid + dist < st.ask then st.bid + dist else st.ask)
          ∧ st'.levels = st1.levels ∧ st'.slots = st1.slots) := by
  intro cfg dist sizeDraw life delta st st' hd hb h
  have hlt : st.bid + dist < 4294967296 := by
    have hN : NUM_PRICES < 4294967296 := by decide
    omega
  have hp : w32 (w64 (st.bid + dist)) = st.bid + dist := by
    rw [w64_of_lt (by omega), w32_of_lt hlt]
  simp only [synLimitSellStep] at h
  rw [hp] at h
  cases ha : addLimitOrder cfg (st.bid + dist) sizeDraw
      (w64 (st.nextOrderCreation + life)) false st with
  | none => rw [ha] at h; cases h
  | some st1 =>
    rw [ha] at h
    rw [Option.map_some'] at h
    obtain ⟨lo, freeRest, _, hmem, hslot, hbid1, hask1, _⟩ :=
      addLimitOrder_mem cfg (st.bid + dist) sizeDraw
        (w64 (st.nextOrderCreation + life)) false st st1 ha
    rw [w32_of_lt hlt] at hmem
    cases h
    refine ⟨st1, rfl, ⟨lo, hmem, ?_⟩, by omega, ?_, ?_, ?_, ?_⟩
    · rw [hslot, w32_of_lt hlt, w64_idem]
    · by_cases hc : st.bid + dist < st1.ask
      · rw [if_pos hc]; exact hbid1
      · rw [if_neg hc]; exact hbid1
    · rw [← hask1]
      by_cases hc : st.bid + dist < st1.ask
      · rw [if_pos hc, if_pos hc]
      · rw [if_neg hc, if_neg hc]
    · by_cases hc : st.bid + dist < st1.ask
      · rw [if_pos hc]
      · rw [if_neg hc]
    · by_cases hc : st.bid + dist < st1.ask
      · rw [if_pos hc]
      · rw [if_neg hc]

/-- What one synthetic limit-buy event does, under the PRNG range guards:
the order is placed at `ask - dist` and the bid is pulled up when
improved. -/
lemma synLimitBuyStep_effect :
    (∀ (cfg : Config) (dist sizeDraw life delta : Nat) (st : EngineState) st',
        1 ≤ dist → dist ≤ st.ask → st.ask < 4294967296 →
        synLimitBuyStep cfg dist sizeDraw life delta st = some st' →
        ∃ st1, addLimitOrder cfg (st.ask - dist) sizeDraw
            (w64 (st.nextOrderCreation + life)) false st = some st1
          ∧ (∃ lo, lo ∈ st1.levels (st.ask - dist)
              ∧ st1.slots lo = { size := w32 sizeDraw
                                 p := st.ask - dist
                                 expirationTime := w64 (st.nextOrderCreation + life)
                                 user := false })
          ∧ st.ask - dist < st.ask
          ∧ st'.ask = st.ask
          ∧ st'.bid = (if st.bid < st.ask - dist then st.ask - dist else st.bid)
          ∧ st'.levels = st1.levels ∧ st'.slots = st1.slots) := by
  intro cfg dist sizeDraw life delta st st' hd hda ha32 h
  have hsub : (st.ask + (UMAX64 + 1) - w64 dist) % (UMAX64 + 1) = st.ask - dist := by
    rw [w64_of_lt (by
      show dist < 18446744073709551616
      omega)]
    have h1 : st.ask + (UMAX64 + 1) - dist = (st.ask - dist) + (UMAX64 + 1) := by
      unfold UMAX64
      omega
    rw [h1, Nat.add_mod_right]
    exact Nat.mod_eq_of_lt (by unfold UMAX64; omega)
  have hp : w32 ((st.ask + (UMAX64 + 1) - w64 dist) % (UMAX64 + 1)) = st.ask - dist := by
    rw [hsub, w32_of_lt (by omega)]
  simp only [synLimitBuyStep] at h
  rw [hp] at h
  cases ha : addLimitOrder cfg (st.ask - dist) sizeDraw
      (w64 (st.nextOrderCreation + life)) false st with
  | none => rw [ha] at h; cases h
  | some st1 =>
    rw [ha] at h
    rw [Option.map_some'] at h
    obtain ⟨lo, freeRest, _, hmem, hslot, hbid1, hask1, _⟩ :=
      addLimitOrder_mem cfg (st.ask - dist) sizeDraw
        (w64 (st.nextOrderCreation + life)) false st st1 ha
    rw [w32_of_lt (show st.ask - dist < 4294967296 by omega)] at hmem
    cases h
    refine ⟨st1, rfl, ⟨lo, hmem, ?_⟩, by omega, ?_, ?_, ?_, ?_⟩
    · rw [hslot, w32_of_lt (show st.ask - dist < 4294967296 by omega), w64_idem]
    · -- `ask` is untouched by the buy insertion
      by_cases hc : st1.bid < st.ask - dist
      · rw [if_pos hc]; exact hask1
      · rw [if_neg hc]; exact hask1
    · rw [← hbid1]
      by_cases hc : st1.bid < st.ask - dist
      · rw [if_pos hc, if_pos hc]
      · rw [if_neg hc, if_neg hc]
    · by_cases hc : st1.bid < st.ask - dist
      · rw [if_pos hc]
      · rw [if_neg hc]
    · by_cases hc : st1.bid < st.ask - dist
      · rw [if_pos hc]
      · rw [if_neg hc]


/-- Claim C6 (amended): the event generator draws the synthetic limit-order
price from the OPPOSITE side's best price: a limit sell is placed at
`bid + offset` (above the bid, possibly below the current ask) and a limit
buy at `ask - offset` (below the ask, possibly above the current bid); after
insertion the best-price pointer of the order's own side is pulled to the
new price when it improves it (`ask` lowered for a sell, `bid` raised for a
buy). -/
theorem c6_amended :
    (∀ (cfg : Config) (dist sizeDraw life delta : Nat) (st : EngineState) st',
        1 ≤ dist → st.bid + dist < NUM_PRICES →
        synLimitSellStep cfg dist sizeDraw life delta st = some st' →
        ∃ st1, addLimitOrder cfg (st.bid + dist) sizeDraw
            (w64 (st.nextOrderCreation + life)) false st = some st1
          ∧ (∃ lo, lo ∈ st1.levels (st.bid + dist)
              ∧ st1.slots lo = { size := w32 sizeDraw
                                 p := st.bid + dist
                                 expirationTime := w64 (st.nextOrderCreation + life)
                                 user := false })
          ∧ st.bid < st.bid + dist
          ∧ st'.bid = st.bid
          ∧ st'.ask = (if st.bid + dist < st.ask then st.bid + dist else st.ask)
          ∧ st'.levels = st1.levels ∧ st'.slots = st1.slots)
    ∧ (∀ (cfg : Config) (dist sizeDraw life delta : Nat) (st : EngineState) st',
        1 ≤ dist → dist ≤ st.ask → st.ask < 4294967296 →
        synLimitBuyStep cfg dist sizeDraw life delta st = some st' →
        ∃ st1, addLimitOrder cfg (st.ask - dist) sizeDraw
            (w64 (st.nextOrderCreation + life)) false st = some st1
          ∧ (∃ lo, lo ∈ st1.levels (st.ask - dist)
              ∧ st1.slots lo = { size := w32 sizeDraw
                                 p := st.ask - dist
                                 expirationTime := w64 (st.nextOrderCreation + life)
                                 user := false })
          ∧ st.ask - dist < st.ask
          ∧ st'.ask = st.ask
          ∧ st'.bid = (if st.bid < st.ask - dist then st.ask - dist else st.bid)
          ∧ st'.levels = st1.levels ∧ st'.slots = st1.slots) :=
  ⟨synLimitSellStep_effect, synLimitBuyStep_effect⟩

/-! ### Preservation of the pool partition invariant (C2) -/

lemma upd_self {α : Type} (f : Nat → α) (k : Nat) (v : α) : upd f k v k = v := by
  simp [upd]

lemma upd_ne {α : Type} (f : Nat → α) (k : Nat) (v : α) (x : Nat) (h : x ≠ k) :
    upd f k v x = f x := by
  simp [upd, h]

/-- Introduction rule for `PoolInv` with the free list and level map given as
explicit expressions. -/
lemma poolInv_fields (cfg : Config) (st : EngineState) (F : List Nat) (L : Nat → List Nat)
    (hF : st.freeList = F) (hL : st.levels = L)
    (h1 : ∀ x ∈ F, x < cfg.poolSize)
    (h2 : F.Nodup)
    (h3 : ∀ p, (L p).Nodup)
    (h4 : ∀ p x, x ∈ L p → x < cfg.poolSize)
    (h5 : ∀ p x, x ∈ L p → x ∉ F)
    (h6 : ∀ p q x, x ∈ L p → x ∈ L q → p = q)
    (h7 : ∀ x, x < cfg.poolSize → x ∈ F ∨ ∃ p, x ∈ L p) :
    PoolInv cfg st := by
  subst hF
  subst hL
  exact ⟨h1, h2, h3, h4, h5, h6, h7⟩

/-- `PoolInv` only looks at the free list and the level lists. -/
lemma poolInv_congr (cfg : Config) (st st' : EngineState)
    (hf : st'.freeList = st.freeList) (hl : st'.levels = st.levels)
    (P : PoolInv cfg st) : PoolInv cfg st' := by
  refine ⟨?_, ?_, ?_, ?_, ?_, ?_, ?_⟩
  · rw [hf]; exact P.freeBound
  · rw [hf]; exact P.freeNodup
  · rw [hl]; exact P.lvlNodup
  · rw [hl]; exact P.lvlBound
  · rw [hf, hl]; exact P.disj
  · rw [hl]; exact P.cross
  · rw [hf, hl]; exact P.cover

/-- The pool invariant holds for any state with a fresh pool: every handle
free, every level empty. -/
lemma poolInv_fresh (cfg : Config) (st : EngineState)
    (hF : st.freeList = (List.range cfg.poolSize).reverse)
    (hL : st.levels = fun _ => []) : PoolInv cfg st := by
  refine poolInv_fields cfg st _ _ hF hL ?_ ?_ ?_ ?_ ?_ ?_ ?_
  · intro x hx
    rw [List.mem_reverse, List.mem_range] at hx
    exact hx
  · exact List.nodup_reverse.mpr (List.nodup_range _)
  · intro p
    exact List.nodup_nil
  · intro p x hx
    exact absurd hx (List.not_mem_nil x)
  · intro p x hx
    exact absurd hx (List.not_mem_nil x)
  · intro p q x hx
    exact absurd hx (List.not_mem_nil x)
  · intro x hx
    left
    rw [List.mem_reverse, List.mem_range]
    exact hx

/-- Linking a freshly popped handle into one level list preserves the
partition. -/
lemma poolInv_insert (cfg : Config) (st st' : EngineState) (pp lo : Nat)
    (freeRest : List Nat) (newLvl : List Nat)
    (hf : st.freeList = lo :: freeRest)
    (hmem : ∀ x, x ∈ newLvl ↔ x = lo ∨ x ∈ st.levels pp)
    (hnd : newLvl.Nodup)
    (hF : st'.freeList = freeRest)
    (hL : st'.levels = upd st.levels pp newLvl)
    (P : PoolInv cfg st) : PoolInv cfg st' := by
  have hlo_free : lo ∈ st.freeList := by rw [hf]; exact List.mem_cons_self _ _
  have hlo_ps : lo < cfg.poolSize := P.freeBound lo hlo_free
  have hlo_nolvl : ∀ q, lo ∉ st.levels q := fun q hq => P.disj q lo hq hlo_free
  have hnc : (lo :: freeRest).Nodup := hf ▸ P.freeNodup
  rw [List.nodup_cons] at hnc
  refine poolInv_fields cfg st' freeRest (upd st.levels pp newLvl) hF hL ?_ ?_ ?_ ?_ ?_ ?_ ?_
  · intro x hx
    exact P.freeBound x (by rw [hf]; exact List.mem_cons_of_mem _ hx)
  · exact hnc.2
  · intro q
    by_cases hq : q = pp
    · subst hq
      rw [upd_self]
      exact hnd
    · rw [upd_ne _ _ _ _ hq]
      exact P.lvlNodup q
  · intro q x hx
    by_cases hq : q = pp
    · subst hq
      rw [upd_self] at hx
      rcases (hmem x).mp hx with rfl | hx
      · exact hlo_ps
      · exact P.lvlBound _ x hx
    · rw [upd_ne _ _ _ _ hq] at hx
      exact P.lvlBound q x hx
  · intro q x hx hxf
    by_cases hq : q = pp
    · subst hq
      rw [upd_self] at hx
      rcases (hmem x).mp hx with rfl | hx
      · exact hnc.1 hxf
      · exact P.disj _ x hx (by rw [hf]; exact List.mem_cons_of_mem _ hxf)
    · rw [upd_ne _ _ _ _ hq] at hx
      exact P.disj q x hx (by rw [hf]; exact List.mem_cons_of_mem _ hxf)
  · intro q q' x hx hx'
    by_cases hq : q = pp
    · by_cases hq' : q' = pp
      · rw [hq, hq']
      · subst hq
        rw [upd_self] at hx
        rw [upd_ne _ _ _ _ hq'] at hx'
        rcases (hmem x).mp hx with rfl | hx
        · exact absurd hx' (hlo_nolvl q')
        · exact P.cross _ q' x hx hx'
    · by_cases hq' : q' = pp
      · subst hq'
        rw [upd_self] at hx'
        rw [upd_ne _ _ _ _ hq] at hx
        rcases (hmem x).mp hx' with rfl | hx'
        · exact absurd hx (hlo_nolvl q)
        · exact P.cross q _ x hx hx'
      · rw [upd_ne _ _ _ _ hq] at hx
        rw [upd_ne _ _ _ _ hq'] at hx'
        exact P.cross q q' x hx hx'
  · intro x hps
    rcases P.cover x hps with hx | ⟨q, hx⟩
    · rw [hf, List.mem_cons] at hx
      rcases hx with rfl | hx
      · exact Or.inr ⟨pp, by rw [upd_self]; exact (hmem x).mpr (Or.inl rfl)⟩
      · exact Or.inl hx
    · refine Or.inr ⟨q, ?_⟩
      by_cases hq : q = pp
      · subst hq
        rw [upd_self]
        exact (hmem x).mpr (Or.inr hx)
      · rw [upd_ne _ _ _ _ hq]
        exact hx

/-- `addLimitOrder` moves one handle from the free stack into exactly one
level list, preserving the partition. -/
lemma poolInv_addLimitOrder (cfg : Config) (p size exp : Nat) (user : Bool)
    (st st' : EngineState) (h : addLimitOrder cfg p size exp user st = some st')
    (P : PoolInv cfg st) : PoolInv cfg st' := by
  cases hf : st.freeList with
  | nil =>
    rw [show addLimitOrder cfg p size exp user st = none from by
      unfold addLimitOrder
      rw [hf]] at h
    cases h
  | cons lo freeRest =>
    rw [addLimitOrder_cons cfg p size exp user st lo freeRest hf] at h
    have hst := Option.some.inj h
    have hF : st'.freeList = freeRest := by rw [← hst]
    have hL : st'.levels =
        (if st.levels (w32 p) = [] then upd st.levels (w32 p) [lo]
         else if cfg.fillTiesInStackOrder then upd st.levels (w32 p) (lo :: st.levels (w32 p))
         else upd st.levels (w32 p) (st.levels (w32 p) ++ [lo])) := by rw [← hst]
    have hlo_free : lo ∈ st.freeList := by rw [hf]; exact List.mem_cons_self _ _
    have hlo_nolvl : ∀ q, lo ∉ st.levels q := fun q hq => P.disj q lo hq hlo_free
    by_cases he : st.levels (w32 p) = []
    · rw [if_pos he] at hL
      refine poolInv_insert cfg st st' (w32 p) lo freeRest [lo] hf ?_
        (List.nodup_singleton lo) hF hL P
      intro x
      rw [he]
      simp
    · rw [if_neg he] at hL
      by_cases ht : cfg.fillTiesInStackOrder = true
      · rw [if_pos ht] at hL
        refine poolInv_insert cfg st st' (w32 p) lo freeRest _ hf ?_ ?_ hF hL P
        · intro x
          rw [List.mem_cons]
        · rw [List.nodup_cons]
          exact ⟨hlo_nolvl _, P.lvlNodup _⟩
      · rw [if_neg ht] at hL
        refine poolInv_insert cfg st st' (w32 p) lo freeRest _ hf ?_ ?_ hF hL P
        · intro x
          rw [List.mem_append, List.mem_singleton]
          exact Or.comm
        · rw [List.nodup_append]
          refine ⟨P.lvlNodup _, List.nodup_singleton lo, ?_⟩
          intro x hx hx2
          rw [List.mem_singleton] at hx2
          subst hx2
          exact hlo_nolvl (w32 p) hx

/-- The per-level sweep moves exactly the expired handles from the level to
the free stack, preserving the partition. -/
lemma poolInv_updateLimitOrders (cfg : Config) (p t : Nat) (st : EngineState)
    (P : PoolInv cfg st) : PoolInv cfg (updateLimitOrders p t st) := by
  rw [updateLimitOrders_eq]
  refine poolInv_fields cfg _
    (((st.levels p).filter (isExpired st.slots t)).reverse ++ st.freeList)
    (upd st.levels p ((st.levels p).filter fun h => ! isExpired st.slots t h))
    rfl rfl ?_ ?_ ?_ ?_ ?_ ?_ ?_
  · intro x hx
    rw [List.mem_append, List.mem_reverse] at hx
    rcases hx with hx | hx
    · exact P.lvlBound p x (List.mem_filter.mp hx).1
    · exact P.freeBound x hx
  · rw [List.nodup_append]
    refine ⟨List.nodup_reverse.mpr ((P.lvlNodup p).filter _), P.freeNodup, ?_⟩
    intro x hx hx2
    rw [List.mem_reverse] at hx
    exact P.disj p x (List.mem_filter.mp hx).1 hx2
  · intro q
    by_cases hq : q = p
    · subst hq
      rw [upd_self]
      exact (P.lvlNodup q).filter _
    · rw [upd_ne _ _ _ _ hq]
      exact P.lvlNodup q
  · intro q x hx
    by_cases hq : q = p
    · subst hq
      rw [upd_self] at hx
      exact P.lvlBound q x (List.mem_filter.mp hx).1
    · rw [upd_ne _ _ _ _ hq] at hx
      exact P.lvlBound q x hx
  · intro q x hx hxf
    rw [List.mem_append, List.mem_reverse] at hxf
    by_cases hq : q = p
    · subst hq
      rw [upd_self] at hx
      rcases hxf with hxf | hxf
      · have h1 : (! isExpired st.slots t x) = true := (List.mem_filter.mp hx).2
        rw [(List.mem_filter.mp hxf).2] at h1
        simp at h1
      · exact P.disj q x (List.mem_filter.mp hx).1 hxf
    · rw [upd_ne _ _ _ _ hq] at hx
      rcases hxf with hxf | hxf
      · exact hq (P.cross q p x hx (List.mem_filter.mp hxf).1)
      · exact P.disj q x hx hxf
  · intro q q' x hx hx'
    have hx2 : x ∈ st.levels q := by
      by_cases hq : q = p
      · subst hq
        rw [upd_self] at hx
        exact (List.mem_filter.mp hx).1
      · rw [upd_ne _ _ _ _ hq] at hx
        exact hx
    have hx2' : x ∈ st.levels q' := by
      by_cases hq : q' = p
      · subst hq
        rw [upd_self] at hx'
        exact (List.mem_filter.mp hx').1
      · rw [upd_ne _ _ _ _ hq] at hx'
        exact hx'
    exact P.cross q q' x hx2 hx2'
  · intro x hps
    rcases P.cover x hps with hx | ⟨q, hx⟩
    · left
      rw [List.mem_append]
      exact Or.inr hx
    · by_cases hq : q = p
      · subst hq
        cases hb : isExpired st.slots t x with
        | false =>
          right
          refine ⟨q, ?_⟩
          rw [upd_self]
          refine List.mem_filter.mpr ⟨hx, ?_⟩
          rw [hb]
          rfl
        | true =>
          left
          rw [List.mem_append, List.mem_reverse]
          exact Or.inl (List.mem_filter.mpr ⟨hx, hb⟩)
      · right
        refine ⟨q, ?_⟩
        rw [upd_ne _ _ _ _ hq]
        exact hx

/-- Fully consuming the head order of a level preserves the partition. -/
lemma poolInv_fillFullStep (cfg : Config) (p : Nat) (isSell : Bool) (curr : Nat)
    (rest : List Nat) (st : EngineState) (hsync : st.levels p = curr :: rest)
    (P : PoolInv cfg st) : PoolInv cfg (fillFullStep p isSell curr rest st) := by
  have hcurr_lvl : curr ∈ st.levels p := by rw [hsync]; exact List.mem_cons_self _ _
  have hcurr_free : curr ∉ st.freeList := P.disj p curr hcurr_lvl
  have hcurr_ps : curr < cfg.poolSize := P.lvlBound p curr hcurr_lvl
  have hnd : rest.Nodup ∧ curr ∉ rest := by
    have h := P.lvlNodup p
    rw [hsync, List.nodup_cons] at h
    exact ⟨h.2, h.1⟩
  refine poolInv_fields cfg _ (curr :: st.freeList) (upd st.levels p rest)
    rfl rfl ?_ ?_ ?_ ?_ ?_ ?_ ?_
  · intro x hx
    rcases List.mem_cons.mp hx with rfl | hx
    · exact hcurr_ps
    · exact P.freeBound x hx
  · rw [List.nodup_cons]
    exact ⟨hcurr_free, P.freeNodup⟩
  · intro q
    by_cases hq : q = p
    · subst hq
      rw [upd_self]
      exact hnd.1
    · rw [upd_ne _ _ _ _ hq]
      exact P.lvlNodup q
  · intro q x hx
    by_cases hq : q = p
    · subst hq
      rw [upd_self] at hx
      exact P.lvlBound q x (by rw [hsync]; exact List.mem_cons_of_mem _ hx)
    · rw [upd_ne _ _ _ _ hq] at hx
      exact P.lvlBound q x hx
  · intro q x hx hxf
    by_cases hq : q = p
    · subst hq
      rw [upd_self] at hx
      rcases List.mem_cons.mp hxf with rfl | hxf
      · exact hnd.2 hx
      · exact P.disj q x (by rw [hsync]; exact List.mem_cons_of_mem _ hx) hxf
    · rw [upd_ne _ _ _ _ hq] at hx
      rcases List.mem_cons.mp hxf with rfl | hxf
      · exact hq (P.cross q p x hx hcurr_lvl)
      · exact P.disj q x hx hxf
  · intro q q' x hx hx'
    have hx2 : x ∈ st.levels q := by
      by_cases hq : q = p
      · subst hq
        rw [upd_self] at hx
        rw [hsync]
        exact List.mem_cons_of_mem _ hx
      · rw [upd_ne _ _ _ _ hq] at hx
        exact hx
    have hx2' : x ∈ st.levels q' := by
      by_cases hq : q' = p
      · subst hq
        rw [upd_self] at hx'
        rw [hsync]
        exact List.mem_cons_of_mem _ hx'
      · rw [upd_ne _ _ _ _ hq] at hx'
        exact hx'
    exact P.cross q q' x hx2 hx2'
  · intro x hps
    rcases P.cover x hps with hx | ⟨q, hx⟩
    · left
      exact List.mem_cons_of_mem _ hx
    · by_cases hq : q = p
      · subst hq
        rw [hsync, List.mem_cons] at hx
        rcases hx with rfl | hx
        · left
          exact List.mem_cons_self _ _
        · right
          refine ⟨q, ?_⟩
          rw [upd_self]
          exact hx
      · right
        refine ⟨q, ?_⟩
        rw [upd_ne _ _ _ _ hq]
        exact hx

/-- `fillOrders` moves each fully consumed handle from the head of its level
to the free stack, preserving the partition. -/
lemma poolInv_fillOrders (cfg : Config) (p : Nat) (isSell : Bool) :
    ∀ (lvl : List Nat) (size o : Nat) (st : EngineState),
      st.levels p = lvl → PoolInv cfg st →
      PoolInv cfg (fillOrders p isSell lvl size o st).1 := by
  intro lvl
  induction lvl with
  | nil =>
    intro size o st _ P
    exact P
  | cons curr rest ih =>
    intro size o st hsync P
    by_cases hs : (st.slots curr).size ≤ size
    · rw [show fillOrders p isSell (curr :: rest) size o st
            = fillOrders p isSell rest (size - (st.slots curr).size)
                (w32 (o + (st.slots curr).size * p)) (fillFullStep p isSell curr rest st)
          from by simp only [fillOrders]; rw [if_pos hs]]
      refine ih _ _ _ ?_ (poolInv_fillFullStep cfg p isSell curr rest st hsync P)
      rw [show (fillFullStep p isSell curr rest st).levels = upd st.levels p rest from rfl,
        upd_self]
    · rw [show fillOrders p isSell (curr :: rest) size o st
            = (fillPartStep p isSell curr size st, 0, w32 (o + size * p))
          from by simp only [fillOrders]; rw [if_neg hs]]
      exact poolInv_congr cfg st _ rfl rfl P

/-! ### Preservation of bid < ask across every operation (C1) -/

lemma addLimitOrder_proj (cfg : Config) (p size exp : Nat) (user : Bool)
    (st st' : EngineState) (h : addLimitOrder cfg p size exp user st = some st') :
    st'.bid = st.bid ∧ st'.ask = st.ask := by
  cases hf : st.freeList with
  | nil =>
    rw [show addLimitOrder cfg p size exp user st = none from by
      unfold addLimitOrder; rw [hf]] at h
    cases h
  | cons lo freeRest =>
    rw [addLimitOrder_cons cfg p size exp user st lo freeRest hf] at h
    cases h
    exact ⟨rfl, rfl⟩

lemma withdrawFold_proj :
    ∀ (hs : List Nat) (st : EngineState),
      ((hs.foldl (fun s lo =>
          { s with slots := upd s.slots lo { s.slots lo with expirationTime := 0 } }) st).bid
        = st.bid)
      ∧ ((hs.foldl (fun s lo =>
          { s with slots := upd s.slots lo { s.slots lo with expirationTime := 0 } }) st).ask
        = st.ask)
      ∧ ((hs.foldl (fun s lo =>
          { s with slots := upd s.slots lo { s.slots lo with expirationTime := 0 } }) st).levels
        = st.levels)
      ∧ ((hs.foldl (fun s lo =>
          { s with slots := upd s.slots lo { s.slots lo with expirationTime := 0 } }) st).freeList
        = st.freeList)
      ∧ ((hs.foldl (fun s lo =>
          { s with slots := upd s.slots lo { s.slots lo with expirationTime := 0 } }) st).userOrders
        = st.userOrders) := by
  intro hs
  induction hs with
  | nil => intro st; exact ⟨rfl, rfl, rfl, rfl, rfl⟩
  | cons lo rest ih =>
    intro st
    exact ih _

lemma withdrawAllUserOrders_proj (st : EngineState) :
    (withdrawAllUserOrders st).bid = st.bid
    ∧ (withdrawAllUserOrders st).ask = st.ask
    ∧ (withdrawAllUserOrders st).levels = st.levels
    ∧ (withdrawAllUserOrders st).freeList = st.freeList := by
  unfold withdrawAllUserOrders
  obtain ⟨h1, h2, h3, h4, _⟩ := withdrawFold_proj st.userOrders st
  exact ⟨h1, h2, h3, h4⟩

lemma applyEdit_proj (e : Option (Nat × Nat)) (st : EngineState) :
    (applyEdit e st).bid = st.bid
    ∧ (applyEdit e st).ask = st.ask
    ∧ (applyEdit e st).levels = st.levels
    ∧ (applyEdit e st).freeList = st.freeList
    ∧ (applyEdit e st).userOrders = st.userOrders
    ∧ (applyEdit e st).slots = st.slots := by
  rcases e with _ | ⟨sel, v⟩
  · exact ⟨rfl, rfl, rfl, rfl, rfl, rfl⟩
  · rcases sel with _ | _ | _ | _ | _ | n <;> exact ⟨rfl, rfl, rfl, rfl, rfl, rfl⟩

lemma marketSell_ba (size t : Nat) (st : EngineState) r
    (h : marketSell size t st = some r) :
    r.1.ask = st.ask ∧ r.1.bid ≤ st.bid := by
  obtain ⟨h1, h2⟩ := marketSellGo_bid_ask t _ _ _ _ _ r h
  refine ⟨h1, ?_⟩
  rcases h2 with h2 | h2 <;> omega

lemma marketBuy_ba (size t : Nat) (st : EngineState) r
    (h : marketBuy size t st = some r) :
    r.1.bid = st.bid ∧ st.ask ≤ r.1.ask := by
  obtain ⟨h1, h2⟩ := marketBuyGo_bid_ask t _ _ _ _ _ r h
  refine ⟨h1, ?_⟩
  rcases h2 with h2 | h2 <;> omega

lemma userMarketBuyCmd_ba (cfg : Config) (st st' : EngineState)
    (h : userMarketBuyCmd cfg st = some st') :
    st'.bid = st.bid ∧ st.ask ≤ st'.ask := by
  unfold userMarketBuyCmd at h
  by_cases hr : cfg.realisticUserMarketOrders
  · rw [if_pos hr] at h
    cases hm : marketBuy st.userMarketBuySize st.targetTime st with
    | none => rw [hm] at h; cases h
    | some r =>
      rw [hm, Option.map_some'] at h
      cases h
      obtain ⟨h1, h2⟩ := marketBuy_ba _ _ st r hm
      exact ⟨h1, h2⟩
  · rw [if_neg hr] at h
    cases h
    exact ⟨rfl, le_refl _⟩

lemma userMarketSellCmd_ba (cfg : Config) (st st' : EngineState)
    (h : userMarketSellCmd cfg st = some st') :
    st'.ask = st.ask ∧ st'.bid ≤ st.bid := by
  unfold userMarketSellCmd at h
  by_cases hr : cfg.realisticUserMarketOrders
  · rw [if_pos hr] at h
    cases hm : marketSell st.userMarketSellSize st.targetTime st with
    | none => rw [hm] at h; cases h
    | some r =>
      rw [hm, Option.map_some'] at h
      cases h
      obtain ⟨h1, h2⟩ := marketSell_ba _ _ st r hm
      exact ⟨h1, h2⟩
  · rw [if_neg hr] at h
    cases h
    exact ⟨rfl, le_refl _⟩

lemma userLimitCmd_ba (cfg : Config) (bl sl : Bool) (st st' : EngineState)
    (h : userLimitCmd cfg bl sl st = some st') :
    st'.bid = st.bid ∧ st'.ask = st.ask := by
  unfold userLimitCmd at h
  by_cases hn : st.userOrders.length < MAX_NUM_USER_LIMIT_ORDERS
  · rw [if_pos hn] at h
    by_cases hbl : bl
    · rw [if_pos hbl] at h
      exact addLimitOrder_proj _ _ _ _ _ _ _ h
    · rw [if_neg hbl] at h
      by_cases hsl : sl
      · rw [if_pos hsl] at h
        exact addLimitOrder_proj _ _ _ _ _ _ _ h
      · rw [if_neg hsl] at h
        cases h
        exact ⟨rfl, rfl⟩
  · rw [if_neg hn] at h
    cases h
    exact ⟨rfl, rfl⟩

/-- One frame iteration of `mainCycle` preserves `bid < ask`. -/
lemma sweep_bid_eq (t : Nat) (st : EngineState) : (sweepAllLevels t st).bid = st.bid := by
  simp only [sweepAllLevels]

lemma sweep_ask_eq (t : Nat) (st : EngineState) : (sweepAllLevels t st).ask = st.ask := by
  simp only [sweepAllLevels]

lemma updateBidAndAsk_bid_le (s st2 : EngineState) (h2 : updateBidAndAsk s = some st2) :
    st2.bid ≤ s.bid := (updateBidAndAsk_spec _ _ h2).2.2.2.2.2.2.1

lemma updateBidAndAsk_ask_le (s st2 : EngineState) (h2 : updateBidAndAsk s = some st2) :
    s.ask ≤ st2.ask := (updateBidAndAsk_spec _ _ h2).2.2.2.2.2.2.2.1

lemma frameStep_bid_lt_ask (cfg : Config) (bm sm bl sl bsp : Bool)
    (e : Option (Nat × Nat)) (st st' : EngineState)
    (h : frameStep cfg bm sm bl sl bsp e st = some st') (hba : st.bid < st.ask) :
    st'.bid < st'.ask := by
  simp only [frameStep] at h
  rw [Option.bind_eq_some] at h
  obtain ⟨st2, h2, h⟩ := h
  rw [Option.bind_eq_some] at h
  obtain ⟨st3, h3, h⟩ := h
  rw [Option.bind_eq_some] at h
  obtain ⟨st4, h4, h⟩ := h
  rw [Option.bind_eq_some] at h
  obtain ⟨st5, h5, h⟩ := h
  cases h
  have hba2 : st2.bid < st2.ask := by
    have hb2 : st2.bid ≤ st.bid := by
      have hx := updateBidAndAsk_bid_le _ _ h2
      rwa [sweep_bid_eq] at hx
    have ha2 : st.ask ≤ st2.ask := by
      have hx := updateBidAndAsk_ask_le _ _ h2
      rwa [sweep_ask_eq] at hx
    exact Nat.lt_of_le_of_lt hb2 (Nat.lt_of_lt_of_le hba ha2)
  have hba3 : st3.bid < st3.ask := by
    by_cases hbm : bm
    · rw [if_pos hbm] at h3
      obtain ⟨hb3, ha3⟩ := userMarketBuyCmd_ba cfg st2 st3 h3
      omega
    · rw [if_neg hbm] at h3; cases h3; exact hba2
  have hba4 : st4.bid < st4.ask := by
    by_cases hsm : sm
    · rw [if_pos hsm] at h4
      obtain ⟨ha4, hb4⟩ := userMarketSellCmd_ba cfg st3 st4 h4
      omega
    · rw [if_neg hsm] at h4; cases h4; exact hba3
  have hba5 : st5.bid < st5.ask := by
    obtain ⟨hb5, ha5⟩ := userLimitCmd_ba cfg bl sl st4 st5 h5
    omega
  obtain ⟨he1, he2, _, _, _, _⟩ := applyEdit_proj e st5
  show (if bsp then withdrawAllUserOrders (applyEdit e st5) else applyEdit e st5).bid
      < (if bsp then withdrawAllUserOrders (applyEdit e st5) else applyEdit e st5).ask
  by_cases hbsp : bsp
  · rw [if_pos hbsp]
    obtain ⟨hw1, hw2, _, _⟩ := withdrawAllUserOrders_proj (applyEdit e st5)
    omega
  · rw [if_neg hbsp]
    omega

lemma setupInserts_proj (cfg : Config) (t0 : Nat) (life : Nat → Nat) :
    ∀ (ps : List Nat) (idx : Nat) (st st' : EngineState),
      setupInserts cfg t0 life ps idx st = some st' →
      st'.bid = st.bid ∧ st'.ask = st.ask := by
  intro ps
  induction ps with
  | nil =>
    intro idx st st' h
    cases h
    exact ⟨rfl, rfl⟩
  | cons p rest ih =>
    intro idx st st' h
    simp only [setupInserts] at h
    rw [Option.bind_eq_some] at h
    obtain ⟨st1, h1, h⟩ := h
    obtain ⟨hb1, ha1⟩ := addLimitOrder_proj _ _ _ _ _ _ _ h1
    obtain ⟨hb2, ha2⟩ := ih _ _ _ h
    exact ⟨hb2.trans hb1, ha2.trans ha1⟩

/-- Claim C1 (amended): in every reachable state the bid is strictly below
the ask; the bid and ask levels are each non-empty immediately after every
successful bid/ask refresh.  (The counterexample shows that between a market
order that exactly exhausts its last level and the next refresh, the level
under the pointer can be empty.) -/
theorem c1_amended :
    (∀ (cfg : Config) (st : EngineState), Reach cfg st → st.bid < st.ask)
    ∧ (∀ st st', updateBidAndAsk st = some st' →
        st'.levels st'.bid ≠ [] ∧ st'.levels st'.ask ≠ []) := by
  constructor
  · intro cfg st h
    induction h with
    | setup bidDraw spreadDraw startTime life st h1 h2 h3 h4 h5 heq =>
      obtain ⟨hb, ha⟩ := setupInserts_proj cfg startTime life _ 0 _ st heq
      rw [hb, ha]
      show bidDraw < bidDraw + spreadDraw
      omega
    | synMarket st flip sizeDraw delta st' hR hg hs1 hs2 hd heq ih =>
      simp only [synMarketStep] at heq
      cases flip with
      | true =>
        rw [if_pos rfl] at heq
        cases hm : marketSell (w32 sizeDraw) st.nextOrderCreation st with
        | none => rw [hm] at heq; cases heq
        | some r =>
          rw [hm, Option.map_some'] at heq
          cases heq
          obtain ⟨ha, hb⟩ := marketSell_ba _ _ st r hm
          show r.1.bid < r.1.ask
          omega
      | false =>
        rw [if_neg (show ¬(false = true) from by simp)] at heq
        cases hm : marketBuy (w32 sizeDraw) st.nextOrderCreation st with
        | none => rw [hm] at heq; cases heq
        | some r =>
          rw [hm, Option.map_some'] at heq
          cases heq
          obtain ⟨hb, ha⟩ := marketBuy_ba _ _ st r hm
          show r.1.bid < r.1.ask
          omega
    | synLimitSell st dist sizeDraw life delta st' hR hg hd hbound hs1 hs2 hl hdel heq ih =>
      obtain ⟨st1, _, _, _, hbid, hask, _, _⟩ :=
        synLimitSellStep_effect cfg dist sizeDraw life delta st st' hd hbound heq
      rw [hbid, hask]
      by_cases hc : st.bid + dist < st.ask
      · rw [if_pos hc]; omega
      · rw [if_neg hc]; exact ih
    | synLimitBuy st dist sizeDraw life delta st' hR hg hd hda ha32 hs1 hs2 hl hdel heq ih =>
      obtain ⟨st1, _, _, _, hask, hbid, _, _⟩ :=
        synLimitBuyStep_effect cfg dist sizeDraw life delta st st' hd hda ha32 heq
      rw [hbid, hask]
      by_cases hc : st.bid < st.ask - dist
      · rw [if_pos hc]; omega
      · rw [if_neg hc]; exact ih
    | frame st bm sm bl sl bsp e st' hR hg he heq ih =>
      exact frameStep_bid_lt_ask cfg bm sm bl sl bsp e st st' heq ih
  · intro st st' h
    obtain ⟨hl, _, _, _, _, _, _, _, h9, h10, _⟩ := updateBidAndAsk_spec st st' h
    rw [hl]
    exact ⟨h9, h10⟩

/-- Witness for `c1_amended`: the reachable state `c1St0` (right after
`setupMarket`) and the concrete refresh of the C7 scenario. -/
theorem c1_amended_witness :
    c1St0.bid < c1St0.ask ∧ (c7R2.levels c7R2.bid ≠ [] ∧ c7R2.levels c7R2.ask ≠ []) :=
  ⟨c1_amended.1 (cfgTail 230) c1St0
      (Reach.setup 500 1 0 (fun _ => 10) c1St0 (by decide) (by decide) (by decide)
        (by decide) (fun _ => (by decide : (1:Nat) ≤ 10)) (optEqSomeGetD _ _ (by decide))),
   c1_amended.2 c7R.1 c7R2 (optEqSomeGetD _ _ (by decide))⟩

/-- Witness for `c6_amended` at the concrete state of the C6
counterexample. -/
theorem c6_amended_witness :
    (∃ st1, addLimitOrder (cfgTail 4) (c6Base.bid + 3) 7
        (w64 (c6Base.nextOrderCreation + 100)) false c6Base = some st1
      ∧ (∃ lo, lo ∈ st1.levels (c6Base.bid + 3)
          ∧ st1.slots lo = { size := w32 7
                             p := c6Base.bid + 3
                             expirationTime := w64 (c6Base.nextOrderCreation + 100)
                             user := false })
      ∧ c6Base.bid < c6Base.bid + 3
      ∧ ((synLimitSellStep (cfgTail 4) 3 7 100 1 c6Base).getD c6Base).bid = c6Base.bid
      ∧ ((synLimitSellStep (cfgTail 4) 3 7 100 1 c6Base).getD c6Base).ask
          = (if c6Base.bid + 3 < c6Base.ask then c6Base.bid + 3 else c6Base.ask)
      ∧ ((synLimitSellStep (cfgTail 4) 3 7 100 1 c6Base).getD c6Base).levels = st1.levels
      ∧ ((synLimitSellStep (cfgTail 4) 3 7 100 1 c6Base).getD c6Base).slots = st1.slots) :=
  c6_amended.1 (cfgTail 4) 3 7 100 1 c6Base
    ((synLimitSellStep (cfgTail 4) 3 7 100 1 c6Base).getD c6Base)
    (by decide) (by decide) (optEqSomeGetD _ _ (by decide))

/-! ### The pool partition across whole operations and reachable states (C2) -/

/-- Visiting one `marketSell` level preserves the partition: the state is a
sweep followed by `fillOrders`. -/
lemma poolInv_sellLevelStep (cfg : Config) (t p size o : Nat) (st : EngineState)
    (P : PoolInv cfg st) : PoolInv cfg (sellLevelStep t p size o st).st := by
  show PoolInv cfg (fillOrders p true
      ((updateLimitOrders p t { st with bid := p }).levels p) size o
      (updateLimitOrders p t { st with bid := p })).1
  exact poolInv_fillOrders cfg p true _ size o _ rfl
    (poolInv_updateLimitOrders cfg p t _ (poolInv_congr cfg st _ rfl rfl P))

/-- Visiting one `marketBuy` level preserves the partition. -/
lemma poolInv_buyLevelStep (cfg : Config) (t p size o : Nat) (st : EngineState)
    (P : PoolInv cfg st) : PoolInv cfg (buyLevelStep t p size o st).st := by
  show PoolInv cfg (fillOrders p false
      ((updateLimitOrders p t { st with ask := p }).levels p) size o
      (updateLimitOrders p t { st with ask := p })).1
  exact poolInv_fillOrders cfg p false _ size o _ rfl
    (poolInv_updateLimitOrders cfg p t _ (poolInv_congr cfg st _ rfl rfl P))

/-- The downward `marketSell` scan preserves the partition. -/
lemma poolInv_marketSellGo (cfg : Config) (t : Nat) :
    ∀ (fuel p size o : Nat) (st : EngineState)
      (r : EngineState × Nat × List (Nat × List (Nat × Nat))),
      marketSellGo t fuel p size o st = some r → PoolInv cfg st → PoolInv cfg r.1 := by
  intro fuel
  induction fuel with
  | zero =>
    intro p size o st r h P
    simp only [marketSellGo] at h
    by_cases hz : size = 0
    · rw [if_pos hz] at h
      cases h
      exact P
    · rw [if_neg hz] at h
      cases h
  | succ fuel ih =>
    intro p size o st r h P
    simp only [marketSellGo] at h
    by_cases hz : size = 0
    · rw [if_pos hz] at h
      cases h
      exact P
    · rw [if_neg hz] at h
      by_cases he : st.levels p = []
      · rw [if_pos he] at h
        by_cases hp : p = 0
        · rw [if_pos hp] at h
          cases h
        · rw [if_neg hp] at h
          exact ih _ _ _ _ r h P
      · rw [if_neg he] at h
        have Pr : PoolInv cfg (sellLevelStep t p size o st).st :=
          poolInv_sellLevelStep cfg t p size o st P
        by_cases hr0 : (sellLevelStep t p size o st).size = 0
        · rw [if_pos hr0] at h
          cases h
          exact Pr
        · rw [if_neg hr0] at h
          by_cases hp : p = 0
          · rw [if_pos hp] at h
            cases h
          · rw [if_neg hp] at h
            cases hq : marketSellGo t fuel (p - 1) (sellLevelStep t p size o st).size
                (sellLevelStep t p size o st).o (sellLevelStep t p size o st).st with
            | none =>
              rw [hq] at h
              cases h
            | some q =>
              rw [hq, Option.map_some'] at h
              cases h
              exact ih _ _ _ _ q hq Pr

/-- The upward `marketBuy` scan preserves the partition. -/
lemma poolInv_marketBuyGo (cfg : Config) (t : Nat) :
    ∀ (fuel p size o : Nat) (st : EngineState)
      (r : EngineState × Nat × List (Nat × List (Nat × Nat))),
      marketBuyGo t fuel p size o st = some r → PoolInv cfg st → PoolInv cfg r.1 := by
  intro fuel
  induction fuel with
  | zero =>
    intro p size o st r h P
    simp only [marketBuyGo] at h
    by_cases hz : size = 0
    · rw [if_pos hz] at h
      cases h
      exact P
    · rw [if_neg hz] at h
      cases h
  | succ fuel ih =>
    intro p size o st r h P
    simp only [marketBuyGo] at h
    by_cases hz : size = 0
    · rw [if_pos hz] at h
      cases h
      exact P
    · rw [if_neg hz] at h
      by_cases hnp : NUM_PRICES ≤ p
      · rw [if_pos hnp] at h
        cases h
      · rw [if_neg hnp] at h
        by_cases he : st.levels p = []
        · rw [if_pos he] at h
          exact ih _ _ _ _ r h P
        · rw [if_neg he] at h
          cases hq : marketBuyGo t fuel (p + 1) (buyLevelStep t p size o st).size
              (buyLevelStep t p size o st).o (buyLevelStep t p size o st).st with
          | none =>
            rw [hq] at h
            cases h
          | some q =>
            rw [hq, Option.map_some'] at h
            cases h
            exact ih _ _ _ _ q hq (poolInv_buyLevelStep cfg t p size o st P)

/-- `marketSell` preserves the partition. -/
lemma poolInv_marketSell (cfg : Config) (size t : Nat) (st : EngineState)
    (r : EngineState × Nat × List (Nat × List (Nat × Nat)))
    (h : marketSell size t st = some r) (P : PoolInv cfg st) : PoolInv cfg r.1 :=
  poolInv_marketSellGo cfg t _ _ _ _ _ r h P

/-- `marketBuy` preserves the partition. -/
lemma poolInv_marketBuy (cfg : Config) (size t : Nat) (st : EngineState)
    (r : EngineState × Nat × List (Nat × List (Nat × Nat)))
    (h : marketBuy size t st = some r) (P : PoolInv cfg st) : PoolInv cfg r.1 :=
  poolInv_marketBuyGo cfg t _ _ _ _ _ r h P

/-- `updateBidAndAsk` does not touch the pool. -/
lemma poolInv_updateBidAndAsk (cfg : Config) (st st' : EngineState)
    (h : updateBidAndAsk st = some st') (P : PoolInv cfg st) : PoolInv cfg st' := by
  obtain ⟨hl, _, hf, _⟩ := updateBidAndAsk_spec st st' h
  exact poolInv_congr cfg st st' hf hl P

/-- The frame sweep's free-stack fold, written as one `flatMap`. -/
lemma foldl_pushAll_eq (f : Nat → List Nat) :
    ∀ (ps : List Nat) (free : List Nat),
      ps.foldl (fun acc p => pushAll (f p) acc) free = (ps.flatMap f).reverse ++ free := by
  intro ps
  induction ps with
  | nil =>
    intro free
    simp
  | cons p rest ih =>
    intro free
    rw [List.foldl_cons, ih, pushAll_eq, List.flatMap_cons, List.reverse_append,
      List.append_assoc]

/-- A `flatMap` of pairwise-disjoint duplicate-free lists over a
duplicate-free index list is duplicate-free. -/
lemma nodup_flatMap_of_disjoint (f : Nat → List Nat) :
    ∀ ps : List Nat, ps.Nodup → (∀ p, (f p).Nodup) →
      (∀ p q x, x ∈ f p → x ∈ f q → p = q) → (ps.flatMap f).Nodup := by
  intro ps
  induction ps with
  | nil =>
    intro _ _ _
    simp
  | cons p rest ih =>
    intro hnd hf hc
    rw [List.flatMap_cons, List.nodup_append]
    rw [List.nodup_cons] at hnd
    refine ⟨hf p, ih hnd.2 hf hc, ?_⟩
    intro x hx hx2
    rw [List.mem_flatMap] at hx2
    obtain ⟨q, hq, hxq⟩ := hx2
    exact hnd.1 (by rw [hc p q x hx hxq]; exact hq)

/-- The free stack left by the frame sweep, as one `flatMap` of the expired
handles in ascending price order. -/
lemma sweepAllFree_eq (slots : Nat → Order) (t : Nat) (levels : Nat → List Nat)
    (free : List Nat) :
    sweepAllFree slots t levels free =
      ((List.range NUM_PRICES).flatMap
        fun p => (levels p).filter (isExpired slots t)).reverse ++ free := by
  unfold sweepAllFree
  rw [foldl_pushAll_eq]
  simp only [updateLimitOrdersList_eq]

lemma sweep_freeList_eq (t : Nat) (st : EngineState) :
    (sweepAllLevels t st).freeList =
      ((List.range NUM_PRICES).flatMap
        fun p => (st.levels p).filter (isExpired st.slots t)).reverse ++ st.freeList := by
  simp only [sweepAllLevels]
  exact sweepAllFree_eq st.slots t st.levels st.freeList

lemma sweep_levels_eq (t : Nat) (st : EngineState) :
    (sweepAllLevels t st).levels = fun p =>
      if p < NUM_PRICES then (st.levels p).filter (fun h => ! isExpired st.slots t h)
      else st.levels p := by
  funext p
  simp only [sweepAllLevels, updateLimitOrdersList_eq]

/-- The whole-book frame sweep (`for p: updateLimitOrders(p, targetTime)`)
preserves the partition: every expired handle of every level moves to the
free stack, the survivors stay on their level. -/
lemma poolInv_sweepAllLevels (cfg : Config) (t : Nat) (st : EngineState)
    (P : PoolInv cfg st) : PoolInv cfg (sweepAllLevels t st) := by
  refine poolInv_fields cfg _
    (((List.range NUM_PRICES).flatMap
        fun p => (st.levels p).filter (isExpired st.slots t)).reverse ++ st.freeList)
    (fun p => if p < NUM_PRICES
      then (st.levels p).filter (fun h => ! isExpired st.slots t h) else st.levels p)
    (sweep_freeList_eq t st) (sweep_levels_eq t st) ?_ ?_ ?_ ?_ ?_ ?_ ?_
  · intro x hx
    rw [List.mem_append, List.mem_reverse] at hx
    rcases hx with hx | hx
    · rw [List.mem_flatMap] at hx
      obtain ⟨p, _, hxp⟩ := hx
      exact P.lvlBound p x (List.mem_filter.mp hxp).1
    · exact P.freeBound x hx
  · rw [List.nodup_append]
    refine ⟨List.nodup_reverse.mpr ?_, P.freeNodup, ?_⟩
    · refine nodup_flatMap_of_disjoint _ _ (List.nodup_range _)
        (fun p => (P.lvlNodup p).filter _) ?_
      intro p q x hxp hxq
      exact P.cross p q x (List.mem_filter.mp hxp).1 (List.mem_filter.mp hxq).1
    · intro x hx hx2
      rw [List.mem_reverse, List.mem_flatMap] at hx
      obtain ⟨p, _, hxp⟩ := hx
      exact P.disj p x (List.mem_filter.mp hxp).1 hx2
  · intro q
    simp only []
    by_cases hq : q < NUM_PRICES
    · rw [if_pos hq]
      exact (P.lvlNodup q).filter _
    · rw [if_neg hq]
      exact P.lvlNodup q
  · intro q x hx
    simp only [] at hx
    by_cases hq : q < NUM_PRICES
    · rw [if_pos hq] at hx
      exact P.lvlBound q x (List.mem_filter.mp hx).1
    · rw [if_neg hq] at hx
      exact P.lvlBound q x hx
  · intro q x hx hxf
    simp only [] at hx
    rw [List.mem_append, List.mem_reverse] at hxf
    have hxl : x ∈ st.levels q := by
      by_cases hq : q < NUM_PRICES
      · rw [if_pos hq] at hx
        exact (List.mem_filter.mp hx).1
      · rw [if_neg hq] at hx
        exact hx
    rcases hxf with hxf | hxf
    · rw [List.mem_flatMap] at hxf
      obtain ⟨p, hp, hxp⟩ := hxf
      have hpq : p = q := P.cross p q x (List.mem_filter.mp hxp).1 hxl
      subst hpq
      rw [List.mem_range] at hp
      rw [if_pos hp] at hx
      have h1 : (! isExpired st.slots t x) = true := (List.mem_filter.mp hx).2
      rw [(List.mem_filter.mp hxp).2] at h1
      simp at h1
    · exact P.disj q x hxl hxf
  · intro q q' x hx hx'
    simp only [] at hx hx'
    have hxl : x ∈ st.levels q := by
      by_cases hq : q < NUM_PRICES
      · rw [if_pos hq] at hx
        exact (List.mem_filter.mp hx).1
      · rw [if_neg hq] at hx
        exact hx
    have hxl' : x ∈ st.levels q' := by
      by_cases hq : q' < NUM_PRICES
      · rw [if_pos hq] at hx'
        exact (List.mem_filter.mp hx').1
      · rw [if_neg hq] at hx'
        exact hx'
    exact P.cross q q' x hxl hxl'
  · intro x hps
    rcases P.cover x hps with hx | ⟨q, hx⟩
    · left
      rw [List.mem_append]
      exact Or.inr hx
    · by_cases hq : q < NUM_PRICES
      · cases hb : isExpired st.slots t x with
        | false =>
          right
          refine ⟨q, ?_⟩
          simp only []
          rw [if_pos hq]
          refine List.mem_filter.mpr ⟨hx, ?_⟩
          rw [hb]
          rfl
        | true =>
          left
          rw [List.mem_append, List.mem_reverse, List.mem_flatMap]
          exact Or.inl ⟨q, List.mem_range.mpr hq, List.mem_filter.mpr ⟨hx, hb⟩⟩
      · right
        refine ⟨q, ?_⟩
        simp only []
        rw [if_neg hq]
        exact hx

/-- The user's market buy command preserves the partition. -/
lemma poolInv_userMarketBuyCmd (cfg : Config) (st st' : EngineState)
    (h : userMarketBuyCmd cfg st = some st') (P : PoolInv cfg st) : PoolInv cfg st' := by
  unfold userMarketBuyCmd at h
  by_cases hr : cfg.realisticUserMarketOrders = true
  · rw [if_pos hr] at h
    cases hm : marketBuy st.userMarketBuySize st.targetTime st with
    | none =>
      rw [hm] at h
      cases h
    | some r =>
      rw [hm, Option.map_some'] at h
      cases Option.some.inj h
      exact poolInv_congr cfg r.1 _ rfl rfl (poolInv_marketBuy cfg _ _ st r hm P)
  · rw [if_neg hr] at h
    cases Option.some.inj h
    exact poolInv_congr cfg st _ rfl rfl P

/-- The user's market sell command preserves the partition. -/
lemma poolInv_userMarketSellCmd (cfg : Config) (st st' : EngineState)
    (h : userMarketSellCmd cfg st = some st') (P : PoolInv cfg st) : PoolInv cfg st' := by
  unfold userMarketSellCmd at h
  by_cases hr : cfg.realisticUserMarketOrders = true
  · rw [if_pos hr] at h
    cases hm : marketSell st.userMarketSellSize st.targetTime st with
    | none =>
      rw [hm] at h
      cases h
    | some r =>
      rw [hm, Option.map_some'] at h
      cases Option.some.inj h
      exact poolInv_congr cfg r.1 _ rfl rfl (poolInv_marketSell cfg _ _ st r hm P)
  · rw [if_neg hr] at h
    cases Option.some.inj h
    exact poolInv_congr cfg st _ rfl rfl P

/-- The user's limit-order command preserves the partition. -/
lemma poolInv_userLimitCmd (cfg : Config) (buyLimit sellLimit : Bool)
    (st st' : EngineState) (h : userLimitCmd cfg buyLimit sellLimit st = some st')
    (P : PoolInv cfg st) : PoolInv cfg st' := by
  unfold userLimitCmd at h
  by_cases h1 : st.userOrders.length < MAX_NUM_USER_LIMIT_ORDERS
  · rw [if_pos h1] at h
    by_cases hb : buyLimit = true
    · rw [if_pos hb] at h
      exact poolInv_addLimitOrder cfg _ _ _ _ st st' h P
    · rw [if_neg hb] at h
      by_cases hs : sellLimit = true
      · rw [if_pos hs] at h
        exact poolInv_addLimitOrder cfg _ _ _ _ st st' h P
      · rw [if_neg hs] at h
        cases Option.some.inj h
        exact P
  · rw [if_neg h1] at h
    cases Option.some.inj h
    exact P

/-- One whole frame of `mainCycle` preserves the partition. -/
lemma poolInv_frameStep (cfg : Config) (bm sm bl sl bsp : Bool)
    (e : Option (Nat × Nat)) (st st' : EngineState)
    (h : frameStep cfg bm sm bl sl bsp e st = some st') (P : PoolInv cfg st) :
    PoolInv cfg st' := by
  simp only [frameStep] at h
  rw [Option.bind_eq_some] at h
  obtain ⟨st2, h2, h⟩ := h
  rw [Option.bind_eq_some] at h
  obtain ⟨st3, h3, h⟩ := h
  rw [Option.bind_eq_some] at h
  obtain ⟨st4, h4, h⟩ := h
  rw [Option.bind_eq_some] at h
  obtain ⟨st5, h5, h⟩ := h
  cases h
  have P2 : PoolInv cfg st2 :=
    poolInv_updateBidAndAsk cfg _ st2 h2 (poolInv_sweepAllLevels cfg st.targetTime st P)
  have P3 : PoolInv cfg st3 := by
    by_cases hb : bm = true
    · rw [if_pos hb] at h3
      exact poolInv_userMarketBuyCmd cfg st2 st3 h3 P2
    · rw [if_neg hb] at h3
      cases Option.some.inj h3
      exact P2
  have P4 : PoolInv cfg st4 := by
    by_cases hs : sm = true
    · rw [if_pos hs] at h4
      exact poolInv_userMarketSellCmd cfg st3 st4 h4 P3
    · rw [if_neg hs] at h4
      cases Option.some.inj h4
      exact P3
  have P5 : PoolInv cfg st5 := poolInv_userLimitCmd cfg bl sl st4 st5 h5 P4
  have P6 : PoolInv cfg (applyEdit e st5) := by
    obtain ⟨_, _, hl, hf, _, _⟩ := applyEdit_proj e st5
    exact poolInv_congr cfg st5 _ hf hl P5
  by_cases hbsp : bsp = true
  · rw [if_pos hbsp]
    refine poolInv_congr cfg (applyEdit e st5) _ ?_ ?_ P6
    · exact (withdrawAllUserOrders_proj (applyEdit e st5)).2.2.2
    · exact (withdrawAllUserOrders_proj (applyEdit e st5)).2.2.1
  · rw [if_neg hbsp]
    exact poolInv_congr cfg (applyEdit e st5) _ rfl rfl P6

/-- A synthetic market order preserves the partition. -/
lemma poolInv_synMarketStep (cfg : Config) (flip : Bool) (sizeDraw delta : Nat)
    (st st' : EngineState) (h : synMarketStep flip sizeDraw delta st = some st')
    (P : PoolInv cfg st) : PoolInv cfg st' := by
  simp only [synMarketStep] at h
  cases flip with
  | true =>
    rw [if_pos rfl] at h
    cases hm : marketSell (w32 sizeDraw) st.nextOrderCreation st with
    | none =>
      rw [hm] at h
      cases h
    | some r =>
      rw [hm, Option.map_some'] at h
      cases Option.some.inj h
      exact poolInv_congr cfg r.1 _ rfl rfl (poolInv_marketSell cfg _ _ st r hm P)
  | false =>
    rw [if_neg (show ¬(false = true) from by simp)] at h
    cases hm : marketBuy (w32 sizeDraw) st.nextOrderCreation st with
    | none =>
      rw [hm] at h
      cases h
    | some r =>
      rw [hm, Option.map_some'] at h
      cases Option.some.inj h
      exact poolInv_congr cfg r.1 _ rfl rfl (poolInv_marketBuy cfg _ _ st r hm P)

/-- A synthetic limit sell preserves the partition. -/
lemma poolInv_synLimitSellStep (cfg : Config) (dist sizeDraw life delta : Nat)
    (st st' : EngineState) (h : synLimitSellStep cfg dist sizeDraw life delta st = some st')
    (P : PoolInv cfg st) : PoolInv cfg st' := by
  simp only [synLimitSellStep] at h
  cases ha : addLimitOrder cfg (w32 (w64 (st.bid + dist))) sizeDraw
      (w64 (st.nextOrderCreation + life)) false st with
  | none =>
    rw [ha] at h
    cases h
  | some st1 =>
    rw [ha, Option.map_some'] at h
    have P1 : PoolInv cfg st1 := poolInv_addLimitOrder cfg _ _ _ _ st st1 ha P
    by_cases hlt : w32 (w64 (st.bid + dist)) < st1.ask
    · rw [if_pos hlt] at h
      cases Option.some.inj h
      exact poolInv_congr cfg st1 _ rfl rfl P1
    · rw [if_neg hlt] at h
      cases Option.some.inj h
      exact poolInv_congr cfg st1 _ rfl rfl P1

/-- A synthetic limit buy preserves the partition. -/
lemma poolInv_synLimitBuyStep (cfg : Config) (dist sizeDraw life delta : Nat)
    (st st' : EngineState) (h : synLimitBuyStep cfg dist sizeDraw life delta st = some st')
    (P : PoolInv cfg st) : PoolInv cfg st' := by
  simp only [synLimitBuyStep] at h
  cases ha : addLimitOrder cfg (w32 ((st.ask + (UMAX64 + 1) - w64 dist) % (UMAX64 + 1)))
      sizeDraw (w64 (st.nextOrderCreation + life)) false st with
  | none =>
    rw [ha] at h
    cases h
  | some st1 =>
    rw [ha, Option.map_some'] at h
    have P1 : PoolInv cfg st1 := poolInv_addLimitOrder cfg _ _ _ _ st st1 ha P
    by_cases hlt : st1.bid < w32 ((st.ask + (UMAX64 + 1) - w64 dist) % (UMAX64 + 1))
    · rw [if_pos hlt] at h
      cases Option.some.inj h
      exact poolInv_congr cfg st1 _ rfl rfl P1
    · rw [if_neg hlt] at h
      cases Option.some.inj h
      exact poolInv_congr cfg st1 _ rfl rfl P1

/-- The setup insertion loop preserves the partition. -/
lemma poolInv_setupInserts (cfg : Config) (startTime : Nat) (life : Nat → Nat) :
    ∀ (ps : List Nat) (idx : Nat) (st st' : EngineState),
      setupInserts cfg startTime life ps idx st = some st' →
      PoolInv cfg st → PoolInv cfg st' := by
  intro ps
  induction ps with
  | nil =>
    intro idx st st' h P
    cases Option.some.inj h
    exact P
  | cons p rest ih =>
    intro idx st st' h P
    simp only [setupInserts] at h
    rw [Option.bind_eq_some] at h
    obtain ⟨st1, h1, h2⟩ := h
    exact ih _ _ _ h2 (poolInv_addLimitOrder cfg _ _ _ _ st st1 h1 P)

/-- The state `setupMarket` produces satisfies the partition. -/
lemma poolInv_setupMarket (cfg : Config) (bidDraw spreadDraw startTime : Nat)
    (life : Nat → Nat) (st : EngineState)
    (h : setupMarket cfg bidDraw spreadDraw startTime life = some st) :
    PoolInv cfg st := by
  simp only [setupMarket] at h
  exact poolInv_setupInserts cfg startTime life _ 0 _ st h (poolInv_fresh cfg _ rfl rfl)

/-- Every reachable state satisfies the pool partition invariant. -/
lemma reach_poolInv (cfg : Config) (st : EngineState) (h : Reach cfg st) :
    PoolInv cfg st := by
  induction h with
  | setup bidDraw spreadDraw startTime life st h1 h2 h3 h4 h5 heq =>
    exact poolInv_setupMarket cfg bidDraw spreadDraw startTime life st heq
  | synMarket st flip sizeDraw delta st' hR hg hs1 hs2 hd heq ih =>
    exact poolInv_synMarketStep cfg flip sizeDraw delta st st' heq ih
  | synLimitSell st dist sizeDraw life delta st' hR hg hd hbound hs1 hs2 hl hdel heq ih =>
    exact poolInv_synLimitSellStep cfg dist sizeDraw life delta st st' heq ih
  | synLimitBuy st dist sizeDraw life delta st' hR hg hd hda ha32 hs1 hs2 hl hdel heq ih =>
    exact poolInv_synLimitBuyStep cfg dist sizeDraw life delta st st' heq ih
  | frame st bm sm bl sl bsp e st' hR hg hE heq ih =>
    exact poolInv_frameStep cfg bm sm bl sl bsp e st st' heq ih

/-- C2: after every operation (`setupMarket` insertions, synthetic market and
limit orders, frame sweeps, fills and user commands), each pool handle below
`poolSize` is on the free stack exclusive-or on exactly one price level's
list — never both, and never neither. -/
theorem c2_pool_partition :
    ∀ (cfg : Config) (st : EngineState), Reach cfg st →
      ∀ h, h < cfg.poolSize →
        (h ∈ st.freeList ∧ ∀ p, h ∉ st.levels p)
        ∨ (h ∉ st.freeList ∧ ∃ p, h ∈ st.levels p ∧ ∀ q, h ∈ st.levels q → q = p) := by
  intro cfg st hR h hps
  have P : PoolInv cfg st := reach_poolInv cfg st hR
  by_cases hf : h ∈ st.freeList
  · left
    exact ⟨hf, fun p hmem => P.disj p h hmem hf⟩
  · right
    refine ⟨hf, ?_⟩
    rcases P.cover h hps with hx | ⟨p, hp⟩
    · exact absurd hx hf
    · exact ⟨p, hp, fun q hq => P.cross q p h hq hp⟩

/-- Witness for `c2_pool_partition`: handle 0 in the concrete reachable state
`c1St0` (the 230-slot pool right after `setupMarket`). -/
theorem c2_pool_partition_witness :
    (0 ∈ c1St0.freeList ∧ ∀ p, 0 ∉ c1St0.levels p)
    ∨ (0 ∉ c1St0.freeList ∧ ∃ p, 0 ∈ c1St0.levels p ∧ ∀ q, 0 ∈ c1St0.levels q → q = p) :=
  c2_pool_partition (cfgTail 230) c1St0
    (Reach.setup 500 1 0 (fun _ => 10) c1St0 (by decide) (by decide) (by decide)
      (by decide) (fun _ => (by decide : (1:Nat) ≤ 10)) (optEqSomeGetD _ _ (by decide)))
    0 (by decide)

end OBMS
